import Mathlib

/-! Nachos 3.4 machine emulation core (`machine/machine.cc`).

A shallow embedding of `Machine` from `nachos-3.4/machine/machine.cc`:
the register file, the frame bitmap operations `Find` / `Clear` / `ClearAll`,
the TLB refill routine `tlbSwap` and the trap entry `RaiseException`.

Conventions of the embedding

* C `int` values are mathematical integers (`Int`); where the source relies on
  32-bit wrap-around the wrap is written explicitly with `wrap32`.
* C arrays are lists. An access outside the array, a null dereference and a
  division by zero are undefined behaviour and give `Res.undefinedBehaviour`.
* A failed `ASSERT` aborts the host process; it gives `Res.assertFailed s`
  where `s` is the state at the moment of the abort.
* `printf` / `DEBUG` output is not part of the state, except that the values
  printed by `tlbSwap` are returned as its result.
* Compile-time constants and switches of `machine.h` (which is not among the
  sources) are the fields of `Config`.
-/

namespace Nachos

/-! ## Results of operations -/

/-- Outcome of running an operation on a state of type `σ`: normal return with
a value and the new state, host abort by a failed `ASSERT` (with the state at
that moment), or undefined behaviour of the C++ program. -/
inductive Res (σ α : Type) where
  | ok (a : α) (s : σ)
  | assertFailed (s : σ)
  | undefinedBehaviour
deriving DecidableEq

/-- Signed 32-bit wrap-around of an integer, the value an `int` holds after an
overflowing operation on the usual two's complement hosts. -/
def wrap32 (x : Int) : Int := (x + 2147483648) % 4294967296 - 2147483648

/-! ## Constants and build switches -/

/-- Compile-time constants and preprocessor switches used by `machine.cc`.
Their values live in `machine.h` and the build, which are not among the
sources, so they are parameters of the development. -/
structure Config where
  NumPhysPages : Nat
  PageSize : Nat
  TLBSize : Nat
  NumTotalRegs : Nat
  BadVAddrReg : Nat
  LoadReg : Nat
  LoadValueReg : Nat
  USE_TLB : Bool
  TLB_LRU : Bool
  HOST_IS_BIG_ENDIAN : Bool
deriving DecidableEq

/-- `MemorySize`: the size of main memory in bytes, frames times page size. -/
def Config.MemorySize (cfg : Config) : Nat := cfg.NumPhysPages * cfg.PageSize

/-- The constants of the stock Nachos 3.4 `machine.h`, for a build with the
TLB and the FIFO policy. -/
def stockFIFO : Config :=
  { NumPhysPages := 32, PageSize := 128, TLBSize := 4, NumTotalRegs := 40,
    BadVAddrReg := 39, LoadReg := 37, LoadValueReg := 38,
    USE_TLB := true, TLB_LRU := false, HOST_IS_BIG_ENDIAN := false }

/-- The stock constants for a build with the TLB and the LRU policy. -/
def stockLRU : Config := { stockFIFO with TLB_LRU := true }

/-- The stock constants for a build without the TLB (linear page table). -/
def stockLinear : Config := { stockFIFO with USE_TLB := false }

/-! ## Data model -/

/-- One entry of the TLB or of a page table (`TranslationEntry`), with the
fields `machine.cc` reads and writes; `hitRate` is the hit counter. -/
structure TranslationEntry where
  virtualPage : Int
  physicalPage : Int
  valid : Bool
  readOnly : Bool
  use : Bool
  dirty : Bool
  hitRate : Int
deriving DecidableEq

/-- Modelled from the spec: class `BitMap` (`bitmap.h`, `bitmap.cc` are not
among the sources). The physical frame bitmap is "a fixed-length set of
N_frames bits, one per physical frame, true = allocated". -/
structure BitMap where
  bits : List Bool
deriving DecidableEq

/-- Modelled from the spec: the constructor `BitMap(nitems)`, which is not
among the sources; the bitmap is "created zeroed/clear". -/
def BitMap.new (nitems : Nat) : BitMap := ⟨List.replicate nitems false⟩

/-- Modelled from the spec: `BitMap::Test`, which is not among the sources:
whether the bit of frame `which` is set. A number that names no frame has no
bit and tests as not allocated. -/
def BitMap.Test (bm : BitMap) (which : Int) : Bool :=
  if 0 ≤ which then bm.bits.getD which.toNat false else false

/-- Modelled from the spec: `BitMap::Mark`, which is not among the sources:
sets the bit of frame `which` and no other. -/
def BitMap.Mark (bm : BitMap) (which : Int) : BitMap :=
  if 0 ≤ which then ⟨bm.bits.set which.toNat true⟩ else bm

/-- Modelled from the spec: `BitMap::Clear`, which is not among the sources:
clears the bit of frame `which` and no other. -/
def BitMap.Clear (bm : BitMap) (which : Int) : BitMap :=
  if 0 ≤ which then ⟨bm.bits.set which.toNat false⟩ else bm

/-- Index of the first clear bit of a bit list, scanning from index 0. -/
def BitMap.lowestClear : List Bool → Option Nat
  | [] => none
  | b :: bs => if b = false then some 0 else (BitMap.lowestClear bs).map (· + 1)

/-- Modelled from the spec: `BitMap::Find`, which is not among the sources:
"returns the lowest-numbered currently-free frame and marks it used"; when no
frame is free it returns `-1`, the value `Machine::Find` tests for, and leaves
the bitmap as it is. -/
def BitMap.Find (bm : BitMap) : Int × BitMap :=
  match BitMap.lowestClear bm.bits with
  | some i => ((i : Int), bm.Mark (i : Int))
  | none => (-1, bm)

/-- The state of a `Machine` object: the members `machine.cc` touches.
`tlb` and `pageTable` are pointers in the source; `none` is the null pointer
and `some xs` points to an array holding exactly the entries `xs`. -/
structure Machine where
  registers : List Int
  mainMemory : List Int
  tlb : Option (List TranslationEntry)
  pageTable : Option (List TranslationEntry)
  pageTableSize : Nat
  bitMap : BitMap
  singleStep : Bool
deriving DecidableEq

/-- The execution-mode flag kept by the interrupt object (`interrupt.h`). -/
inductive MachineStatus where
  | IdleMode
  | SystemMode
  | UserMode
deriving DecidableEq

/-- The causes of a kernel trap, in the order of `exceptionNames`. -/
inductive ExceptionType where
  | NoException
  | SyscallException
  | PageFaultException
  | ReadOnlyException
  | BusErrorException
  | AddressErrorException
  | OverflowException
  | IllegalInstrException
deriving DecidableEq

/-- The machine together with the global interrupt object's mode flag, the
state `RaiseException` and the kernel's exception handler act on. -/
structure Sys where
  machine : Machine
  status : MachineStatus
deriving DecidableEq

/-- What the host leaves in memory that the constructor does not initialise:
the fields of a new TLB entry other than `valid` and `hitRate`, the
`pageTableSize` member, and the byte order of the host. -/
structure Host where
  tlbJunk : Nat → TranslationEntry
  pageTableSize : Nat
  bigEndian : Bool

/-! ## Array access -/

/-- Reads `a[i]` for a C `int` index: no value outside the array. -/
def readAt {α : Type} (a : List α) (i : Int) : Option α :=
  if 0 ≤ i then a[i.toNat]? else none

/-- Performs `a[i] = f(a[i])` for a C `int` index: no result outside the
array. -/
def modifyAt {α : Type} (a : List α) (i : Int) (f : α → α) : Option (List α) :=
  match readAt a i with
  | some x => some (a.set i.toNat (f x))
  | none => none

/-- Reads `p[i]` through a pointer that may be null. -/
def readPtr {α : Type} (p : Option (List α)) (i : Int) : Option α :=
  match p with
  | some a => readAt a i
  | none => none

/-! ## Construction -/

/-- `CheckEndian`: the host byte order must be the one the build states. -/
def CheckEndian (cfg : Config) (host : Host) : Bool :=
  let intword : Nat := if host.bigEndian then 0x01020304 else 0x04030201
  if cfg.HOST_IS_BIG_ENDIAN then intword == 0x01020304 else intword == 0x04030201

/-- The TLB array right after `new TranslationEntry[TLBSize]` and the
constructor's loop: every slot invalid with hit counter 0. -/
def freshTlb (cfg : Config) (host : Host) : List TranslationEntry :=
  (List.range cfg.TLBSize).map
    (fun i => { host.tlbJunk i with valid := false, hitRate := 0 })

/-- `Machine::Machine(debug)`, the constructor. It is named `new` because a
definition called `Machine.Machine` would hide the type `Machine` in the
definitions that follow. -/
def Machine.new (cfg : Config) (host : Host) (debug : Bool) : Res Machine Unit :=
  let m : Machine :=
    { registers := List.replicate cfg.NumTotalRegs 0
      mainMemory := List.replicate cfg.MemorySize 0
      tlb := if cfg.USE_TLB then some (freshTlb cfg host) else none
      pageTable := none
      pageTableSize := host.pageTableSize
      bitMap := BitMap.new cfg.NumPhysPages
      singleStep := debug }
  if CheckEndian cfg host then .ok () m else .assertFailed m

/-! ## Register file -/

/-- `Machine::ReadRegister(num)`. -/
def Machine.ReadRegister (cfg : Config) (num : Int) (m : Machine) : Res Machine Int :=
  if 0 ≤ num ∧ num < cfg.NumTotalRegs then
    match readAt m.registers num with
    | some v => .ok v m
    | none => .undefinedBehaviour
  else .assertFailed m

/-- `Machine::WriteRegister(num, value)`. -/
def Machine.WriteRegister (cfg : Config) (num value : Int) (m : Machine) :
    Res Machine Unit :=
  if 0 ≤ num ∧ num < cfg.NumTotalRegs then
    match modifyAt m.registers num (fun _ => value) with
    | some regs => .ok () { m with registers := regs }
    | none => .undefinedBehaviour
  else .assertFailed m

/-! ## Frame allocation -/

/-- `Machine::Find()`: the frame found by the bitmap, which must not be `-1`. -/
def Machine.Find (m : Machine) : Res Machine Int :=
  let r := m.bitMap.Find
  let m1 : Machine := { m with bitMap := r.2 }
  if r.1 ≠ -1 then .ok r.1 m1 else .assertFailed m1

/-- `Machine::Clear(num)`: clears the bit only when it is set. -/
def Machine.Clear (num : Int) (m : Machine) : Res Machine Unit :=
  if m.bitMap.Test num then .ok () { m with bitMap := m.bitMap.Clear num }
  else .ok () m

/-- The table `Machine::ClearAll` takes frame numbers from: the TLB array in a
`USE_TLB` build, the page table otherwise. -/
def Machine.clearAllTable (cfg : Config) (m : Machine) : Option (List TranslationEntry) :=
  if cfg.USE_TLB then m.tlb else m.pageTable

/-- The loop of `Machine::ClearAll` over the indices still to visit. -/
def clearAllLoop (tbl : Option (List TranslationEntry)) :
    List Nat → BitMap → Option BitMap
  | [], bm => some bm
  | i :: rest, bm =>
    match readPtr tbl (i : Int) with
    | none => none
    | some e =>
      let phyPage := e.physicalPage
      clearAllLoop tbl rest (if bm.Test phyPage then bm.Clear phyPage else bm)

/-- `Machine::ClearAll()`. -/
def Machine.ClearAll (cfg : Config) (m : Machine) : Res Machine Unit :=
  match clearAllLoop (m.clearAllTable cfg) (List.range m.pageTableSize) m.bitMap with
  | some bm => .ok () { m with bitMap := bm }
  | none => .undefinedBehaviour

/-- Calls `Machine::Find()` `n` times in a row, collecting the frames returned
in call order; stops at the first call that does not return. -/
def Machine.FindN : Nat → Machine → Res Machine (List Int)
  | 0, m => .ok [] m
  | n + 1, m =>
    match m.Find with
    | .ok f m1 =>
      match Machine.FindN n m1 with
      | .ok fs m2 => .ok (f :: fs) m2
      | .assertFailed s => .assertFailed s
      | .undefinedBehaviour => .undefinedBehaviour
    | .assertFailed s => .assertFailed s
    | .undefinedBehaviour => .undefinedBehaviour

/-! ## TLB refill -/

/-- The free-slot scan of `tlbSwap`, run on the part of the array that starts
at index `i`: the index of the first invalid slot, or `-1` (the initial
`swapI`) when every slot is valid. -/
def scanInvalid : List TranslationEntry → Nat → Int
  | [], _ => -1
  | e :: es, i => if e.valid = false then (i : Int) else scanInvalid es (i + 1)

/-- The initial value of `min` in the LRU branch, `(1 << 31) - 1` evaluated in
32-bit `int` arithmetic with wrap-around. -/
def lruMinInit : Int := wrap32 (wrap32 (2 ^ 31) - 1)

/-- The victim scan of the `TLB_LRU` branch, run on the part of the array that
starts at index `i`, carrying the running `(min, swapI)`. -/
def lruScan : List TranslationEntry → Nat → Int × Int → Int × Int
  | [], _, s => s
  | e :: es, i, s =>
    if e.valid = true ∧ e.hitRate < s.1 then lruScan es (i + 1) (e.hitRate, (i : Int))
    else lruScan es (i + 1) s

/-- One iteration of the shifting loop of the FIFO branch: `tlb[i] = tlb[i+1]`. -/
def shiftStep (t : List TranslationEntry) (i : Nat) : List TranslationEntry :=
  match t[i + 1]? with
  | some e => t.set i e
  | none => t

/-- The shifting loop of the FIFO branch, `tlb[i] = tlb[i+1]` for
`i = 0 .. TLBSize - 2` in this order. -/
def fifoShift (tlb : List TranslationEntry) : List TranslationEntry :=
  (List.range (tlb.length - 1)).foldl shiftStep tlb

/-- The values `tlbSwap` prints when it has filled a slot: the slot index, the
virtual page, and the slot's frame, hit counter and physical address. -/
structure SwapLog where
  swapI : Int
  vpn : Int
  physicalPage : Int
  hitRate : Int
  phyAddr : Int
deriving DecidableEq

/-- The replacement step of `tlbSwap`, run when no slot is invalid: the victim
index and the TLB array after the policy's own writes. -/
def tlbReplace (cfg : Config) (pageTable : Option (List TranslationEntry))
    (vpn : Int) (tlb : List TranslationEntry) : Option (Int × List TranslationEntry) :=
  if cfg.TLB_LRU then
    some ((lruScan tlb 0 (lruMinInit, -1)).2, tlb)
  else
    let swapI : Int := (tlb.length : Int) - 1
    let shifted := fifoShift tlb
    match readPtr pageTable vpn with
    | none => none
    | some pe =>
      match modifyAt shifted swapI (fun e => { e with physicalPage := pe.physicalPage }) with
      | none => none
      | some t => some (swapI, t)

/-- The initialisation `tlbSwap` applies to the slot it fills. -/
def fillSlot (vpn : Int) (e : TranslationEntry) : TranslationEntry :=
  { e with valid := true, virtualPage := vpn, use := false, dirty := false,
           readOnly := false, hitRate := 0 }

/-- `Machine::tlbSwap(vaddr)`. The TLB array has `TLBSize` slots, so the
loops over `0 .. TLBSize - 1` run over the whole list. -/
def Machine.tlbSwap (cfg : Config) (vaddr : Int) (m : Machine) : Res Machine SwapLog :=
  match m.tlb with
  | none => .assertFailed m
  | some tlb =>
    let swapI0 := scanInvalid tlb 0
    if cfg.PageSize = 0 then .undefinedBehaviour
    else
      let vpn := Int.tdiv vaddr cfg.PageSize
      let offset := Int.tmod vaddr cfg.PageSize
      let chosen : Option (Int × List TranslationEntry) :=
        if swapI0 = -1 then tlbReplace cfg m.pageTable vpn tlb else some (swapI0, tlb)
      match chosen with
      | none => .undefinedBehaviour
      | some (swapI, tlb1) =>
        match modifyAt tlb1 swapI (fillSlot vpn) with
        | none => .undefinedBehaviour
        | some tlb2 =>
          match readAt tlb2 swapI with
          | none => .undefinedBehaviour
          | some e =>
            .ok { swapI := swapI, vpn := vpn, physicalPage := e.physicalPage,
                  hitRate := e.hitRate,
                  phyAddr := wrap32 (e.physicalPage * cfg.PageSize + offset) }
                { m with tlb := some tlb2 }

/-- Runs `tlbSwap` on each virtual address of a list in turn; stops at the
first call that does not return. -/
def Machine.tlbSwaps (cfg : Config) : List Int → Machine → Res Machine Unit
  | [], m => .ok () m
  | v :: vs, m =>
    match m.tlbSwap cfg v with
    | .ok _ m1 => Machine.tlbSwaps cfg vs m1
    | .assertFailed s => .assertFailed s
    | .undefinedBehaviour => .undefinedBehaviour

/-! ## Traps -/

/-- Modelled from the spec: `Machine::DelayedLoad(nextReg, nextValue)`
(`mipssim.cc` is not among the sources): "force completion of any pending
delayed register load", the pending load being the target index held in
`LoadReg` and the value held in `LoadValueReg`, then record the next pending
load. A register index outside the file is the programming-error condition. -/
def DelayedLoad (cfg : Config) (nextReg nextValue : Int) (m : Machine) : Res Machine Unit :=
  match readAt m.registers cfg.LoadReg, readAt m.registers cfg.LoadValueReg with
  | some target, some value =>
    match modifyAt m.registers target (fun _ => value) with
    | none => .assertFailed m
    | some r1 =>
      match modifyAt r1 cfg.LoadReg (fun _ => nextReg) with
      | none => .assertFailed m
      | some r2 =>
        match modifyAt r2 cfg.LoadValueReg (fun _ => nextValue) with
        | none => .assertFailed m
        | some r3 => .ok () { m with registers := r3 }
  | _, _ => .assertFailed m

/-- `Machine::RaiseException(which, badVAddr)`. The kernel's
`ExceptionHandler` is external; it is the parameter `handler`, acting on the
machine and the interrupt status. -/
def RaiseException (cfg : Config) (handler : ExceptionType → Sys → Sys)
    (which : ExceptionType) (badVAddr : Int) (s : Sys) : Res Sys Unit :=
  match modifyAt s.machine.registers cfg.BadVAddrReg (fun _ => badVAddr) with
  | none => .undefinedBehaviour
  | some regs =>
    match DelayedLoad cfg 0 0 { s.machine with registers := regs } with
    | .undefinedBehaviour => .undefinedBehaviour
    | .assertFailed m1 => .assertFailed { s with machine := m1 }
    | .ok _ m1 =>
      let s1 : Sys := { machine := m1, status := MachineStatus.SystemMode }
      let s2 := handler which s1
      .ok () { s2 with status := MachineStatus.UserMode }

/-! ## Properties of states -/

/-- Two TLB slots do not both hold a valid mapping of one virtual page. -/
def slotsDiffer (a b : TranslationEntry) : Prop :=
  a.valid = true → b.valid = true → a.virtualPage ≠ b.virtualPage

instance (a b : TranslationEntry) : Decidable (slotsDiffer a b) := by
  unfold slotsDiffer; infer_instance

/-- Among the valid entries of a TLB array no two have the same virtual page
number. -/
def distinctValid (tlb : List TranslationEntry) : Prop :=
  tlb.Pairwise slotsDiffer

instance (tlb : List TranslationEntry) : Decidable (distinctValid tlb) := by
  unfold distinctValid; infer_instance

/-- Some valid entry of the TLB array maps virtual page `vpn`. -/
def tlbHolds (tlb : List TranslationEntry) (vpn : Int) : Bool :=
  tlb.any (fun e => e.valid && decide (e.virtualPage = vpn))

/-- Every slot of the TLB array is valid: the TLB is full. -/
def tlbFull (tlb : List TranslationEntry) : Bool :=
  tlb.all (fun e => e.valid)

/-! ## Example states -/

/-- A machine with no registers, memory, TLB or page table, whose frame bitmap
holds the given bits; for scenarios that concern the allocator alone. -/
def bitmapOnly (bits : List Bool) : Machine :=
  { registers := [], mainMemory := [], tlb := none, pageTable := none,
    pageTableSize := 0, bitMap := ⟨bits⟩, singleStep := false }

/-- A valid entry mapping virtual page `vpn` to frame `ppn`, hit counter
`hits`, all flags clear. -/
def mapping (vpn ppn hits : Int) : TranslationEntry :=
  { virtualPage := vpn, physicalPage := ppn, valid := true, readOnly := false,
    use := false, dirty := false, hitRate := hits }

/-- A machine with four frames of which 1 and 2 are allocated, a one-entry
page table that maps page 0 to frame 1, and a TLB whose slot 0 maps page 0 to
frame 2. -/
def clearAllDemo : Machine :=
  { registers := [], mainMemory := [],
    tlb := some [mapping 0 2 0, mapping 1 2 0],
    pageTable := some [mapping 0 1 0],
    pageTableSize := 1, bitMap := ⟨[false, true, true, false]⟩, singleStep := false }

/-- A host that leaves zeroed entries in fresh memory, little endian. -/
def zeroHost : Host :=
  { tlbJunk := fun _ => { virtualPage := 0, physicalPage := 0, valid := false,
                          readOnly := false, use := false, dirty := false, hitRate := 0 },
    pageTableSize := 0, bigEndian := false }

/-- A small build: four frames of 128 bytes, a four-slot TLB, FIFO policy. -/
def smallFIFO : Config := { stockFIFO with NumPhysPages := 4 }

/-- A machine holding the given registers and nothing else. -/
def registersOnly (regs : List Int) : Machine :=
  { registers := regs, mainMemory := [], tlb := none, pageTable := none,
    pageTableSize := 0, bitMap := ⟨[]⟩, singleStep := false }

/-- An exception handler that stores 0 in `BadVAddrReg` and leaves the rest of
the machine and the interrupt status alone, as a kernel handler may do through
`WriteRegister`. -/
def clobberHandler (cfg : Config) (_which : ExceptionType) (s : Sys) : Sys :=
  { s with machine := { s.machine with
      registers := s.machine.registers.set cfg.BadVAddrReg 0 } }

/-- An exception handler that returns at once, changing nothing. -/
def idleHandler (_which : ExceptionType) (s : Sys) : Sys := s

/-- A machine holding the given TLB array and page table and nothing else. -/
def tlbOnly (tlb pageTable : List TranslationEntry) : Machine :=
  { registers := [], mainMemory := [], tlb := some tlb, pageTable := some pageTable,
    pageTableSize := pageTable.length, bitMap := ⟨[]⟩, singleStep := false }

/-- A page table of eight pages, page `i` in frame `10 + i`. -/
def eightPages : List TranslationEntry :=
  [mapping 0 10 0, mapping 1 11 0, mapping 2 12 0, mapping 3 13 0,
   mapping 4 14 0, mapping 5 15 0, mapping 6 16 0, mapping 7 17 0]

/-- A full four-slot TLB in which every hit counter is `2^31 - 1`. -/
def saturatedTlb : List TranslationEntry :=
  [mapping 0 10 2147483647, mapping 1 11 2147483647,
   mapping 2 12 2147483647, mapping 3 13 2147483647]

/-- Whether every call in a run of `tlbSwap` over a list of virtual addresses
is made on a miss: at the moment of each call no valid TLB entry maps the page
of the address. -/
def Machine.missesOnly (cfg : Config) : List Int → Machine → Bool
  | [], _ => true
  | v :: vs, m =>
    (match m.tlb with
      | some tlb => !tlbHolds tlb (Int.tdiv v cfg.PageSize)
      | none => true) &&
    (match m.tlbSwap cfg v with
      | .ok _ m1 => Machine.missesOnly cfg vs m1
      | .assertFailed _ => true
      | .undefinedBehaviour => true)

/-- A machine with a full four-slot TLB holding pages 0..3 with hit counters
5, 1, 9, 2, and the eight-page table. -/
def fullDemo : Machine :=
  tlbOnly [mapping 0 10 5, mapping 1 11 1, mapping 2 12 9, mapping 3 13 2] eightPages

/-- The state `fullDemo` is left in by a FIFO refill for page 4. -/
def fifoDemoAfter : Machine :=
  tlbOnly [mapping 1 11 1, mapping 2 12 9, mapping 3 13 2, mapping 4 14 0] eightPages

/-- What a FIFO refill for address 517 (page 4, offset 5) prints on `fullDemo`. -/
def fifoDemoLog : SwapLog :=
  { swapI := 3, vpn := 4, physicalPage := 14, hitRate := 0, phyAddr := 1797 }

/-- The state `fullDemo` is left in by an LRU refill for page 4. -/
def lruDemoAfter : Machine :=
  tlbOnly [mapping 0 10 5, mapping 4 11 0, mapping 2 12 9, mapping 3 13 2] eightPages

/-- What an LRU refill for address 517 (page 4, offset 5) prints on `fullDemo`. -/
def lruDemoLog : SwapLog :=
  { swapI := 1, vpn := 4, physicalPage := 11, hitRate := 0, phyAddr := 1413 }

/-- An exception handler that counts its invocations in register 4: each call
adds 1 to that register and changes nothing else. -/
def countingHandler (_which : ExceptionType) (s : Sys) : Sys :=
  { s with machine := { s.machine with
      registers := match s.machine.registers[4]? with
        | some x => s.machine.registers.set 4 (x + 1)
        | none => s.machine.registers } }

/-- A `USE_TLB` machine right after its first page was loaded: four frames, 0
held by another address space and 1 by this one's only page; the TLB is still
the constructor's (every slot invalid, frame field 0). -/
def clearAllInvalidDemo : Machine :=
  { registers := [], mainMemory := [],
    tlb := some (freshTlb stockFIFO zeroHost),
    pageTable := some [mapping 0 1 0],
    pageTableSize := 1, bitMap := ⟨[true, true, false, false]⟩, singleStep := false }

/-- A `USE_TLB` machine whose address space has eight pages, twice the four
slots of the TLB. -/
def clearAllOverrunDemo : Machine :=
  { registers := [], mainMemory := [],
    tlb := some (freshTlb stockFIFO zeroHost),
    pageTable := some eightPages,
    pageTableSize := 8, bitMap := BitMap.new 32, singleStep := false }

end Nachos

/-! # Theorems -/

namespace Nachos

/-! ## Bitmap lemmas -/

theorem BitMap.test_natCast (bm : BitMap) (i : Nat) :
    bm.Test (i : Int) = (bm.bits[i]?).getD false := by
  simp [BitMap.Test, List.getD_eq_getElem?_getD]

theorem BitMap.test_of_neg (bm : BitMap) (f : Int) (hf : f < 0) : bm.Test f = false := by
  have : ¬ (0 ≤ f) := by omega
  simp [BitMap.Test, this]

theorem BitMap.test_of_length_le (bm : BitMap) (f : Int) (hf : (bm.bits.length : Int) ≤ f) :
    bm.Test f = false := by
  have h0 : 0 ≤ f := by omega
  have h1 : bm.bits.length ≤ f.toNat := by omega
  simp [BitMap.Test, h0, List.getD_eq_getElem?_getD, List.getElem?_eq_none h1]

theorem BitMap.test_set (bm : BitMap) (p f : Int) (v : Bool) (hp : 0 ≤ p) :
    (BitMap.mk (bm.bits.set p.toNat v)).Test f =
      if f = p then (decide (p < bm.bits.length) && v) else bm.Test f := by
  by_cases hf : 0 ≤ f
  · by_cases hfp : f = p
    · subst hfp
      by_cases hlt : f < bm.bits.length
      · have : f.toNat < bm.bits.length := by omega
        simp [BitMap.Test, hf, List.getD_eq_getElem?_getD, List.getElem?_set, this, hlt]
      · have : ¬ f.toNat < bm.bits.length := by omega
        simp [BitMap.Test, hf, List.getD_eq_getElem?_getD, List.getElem?_set, this, hlt]
    · have : p.toNat ≠ f.toNat := by omega
      simp [BitMap.Test, hf, List.getD_eq_getElem?_getD, List.getElem?_set, this, hfp]
  · have hfp : f ≠ p := by omega
    simp [BitMap.Test, hf, hfp]

theorem BitMap.test_Clear (bm : BitMap) (p f : Int) :
    (bm.Clear p).Test f = if f = p then false else bm.Test f := by
  by_cases hp : 0 ≤ p
  · simp only [BitMap.Clear, hp, if_true]
    rw [BitMap.test_set bm p f false hp]
    simp
  · simp only [BitMap.Clear, hp, if_false]
    by_cases hfp : f = p
    · subst hfp
      simp [BitMap.test_of_neg bm f (by omega)]
    · simp [hfp]

theorem BitMap.test_Mark (bm : BitMap) (p f : Int) (hp : 0 ≤ p)
    (hlt : p < bm.bits.length) :
    (bm.Mark p).Test f = if f = p then true else bm.Test f := by
  simp only [BitMap.Mark, hp, if_true]
  rw [BitMap.test_set bm p f true hp]
  simp [hlt]

theorem BitMap.length_Clear (bm : BitMap) (p : Int) :
    (bm.Clear p).bits.length = bm.bits.length := by
  unfold BitMap.Clear
  split <;> simp

theorem BitMap.length_Mark (bm : BitMap) (p : Int) :
    (bm.Mark p).bits.length = bm.bits.length := by
  unfold BitMap.Mark
  split <;> simp

theorem BitMap.lowestClear_some (bits : List Bool) (i : Nat)
    (h : BitMap.lowestClear bits = some i) :
    i < bits.length ∧ bits[i]? = some false ∧ ∀ j, j < i → bits[j]? = some true := by
  induction bits generalizing i with
  | nil => simp [BitMap.lowestClear] at h
  | cons b bs ih =>
    cases b with
    | false =>
      simp only [BitMap.lowestClear, if_true, Option.some.injEq] at h
      subst h
      simp
    | true =>
      simp only [BitMap.lowestClear, Bool.true_eq_false, if_false, Option.map_eq_some'] at h
      obtain ⟨k, hk, rfl⟩ := h
      obtain ⟨h1, h2, h3⟩ := ih k hk
      refine ⟨by simpa using h1, by simpa using h2, ?_⟩
      intro j hj
      cases j with
      | zero => simp
      | succ j => simpa using h3 j (by omega)

theorem BitMap.lowestClear_none (bits : List Bool)
    (h : BitMap.lowestClear bits = none) :
    ∀ j, j < bits.length → bits[j]? = some true := by
  induction bits with
  | nil => intro j hj; simp at hj
  | cons b bs ih =>
    cases b with
    | false => simp [BitMap.lowestClear] at h
    | true =>
      simp only [BitMap.lowestClear, Bool.true_eq_false, if_false, Option.map_eq_none'] at h
      intro j hj
      cases j with
      | zero => simp
      | succ j => simpa using ih h j (by simpa using hj)

end Nachos

namespace Nachos

/-! ## Frame allocator -/

theorem lowestClear_prefix (k r : Nat) :
    BitMap.lowestClear (List.replicate k true ++ List.replicate (r + 1) false) = some k := by
  induction k with
  | zero => rw [List.replicate_zero, List.nil_append, List.replicate_succ, BitMap.lowestClear, if_pos rfl]
  | succ k ih =>
    rw [List.replicate_succ true k, List.cons_append, BitMap.lowestClear,
      if_neg (by decide), ih]
    rfl

theorem set_prefix (k r : Nat) :
    (List.replicate k true ++ List.replicate (r + 1) false).set k true =
      List.replicate (k + 1) true ++ List.replicate r false := by
  induction k with
  | zero => rw [List.replicate_zero, List.nil_append, List.replicate_succ false r]; rfl
  | succ k ih =>
    rw [List.replicate_succ true k, List.cons_append, List.set_cons_succ, ih,
      List.replicate_succ true (k + 1), List.cons_append]

theorem Find_prefix (m : Machine) (k r : Nat)
    (hb : m.bitMap.bits = List.replicate k true ++ List.replicate (r + 1) false) :
    m.Find = .ok (k : Int)
      { m with bitMap := ⟨List.replicate (k + 1) true ++ List.replicate r false⟩ } := by
  have hne : ((k : Int) ≠ -1) := by omega
  have h0 : (0 : Int) ≤ (k : Int) := by omega
  have hF : m.bitMap.Find =
      ((k : Int), ⟨List.replicate (k + 1) true ++ List.replicate r false⟩) := by
    rw [BitMap.Find, hb, lowestClear_prefix]
    simp only [BitMap.Mark, h0, if_true, Int.toNat_ofNat, hb, set_prefix]
  simp only [Machine.Find, hF, hne, ne_eq, not_false_eq_true, if_true]

theorem FindN_prefix (n : Nat) (m : Machine) (k r : Nat) (hn : n ≤ r)
    (hb : m.bitMap.bits = List.replicate k true ++ List.replicate r false) :
    m.FindN n = .ok ((List.range n).map (fun i => ((k + i : Nat) : Int)))
      { m with bitMap := ⟨List.replicate (k + n) true ++ List.replicate (r - n) false⟩ } := by
  induction n generalizing m k r with
  | zero =>
    obtain ⟨rg, mm, tl, pt, ps, ⟨bits⟩, ss⟩ := m
    simp only at hb
    subst hb
    simp [Machine.FindN]
  | succ n ih =>
    obtain ⟨r, rfl⟩ : ∃ q, r = q + 1 := ⟨r - 1, by omega⟩
    rw [Machine.FindN, Find_prefix m k r hb]
    simp only
    rw [ih _ (k + 1) r (by omega) rfl]
    have h1 : k + 1 + n = k + (n + 1) := by omega
    have h2 : r + 1 - (n + 1) = r - n := by omega
    simp only [h1, h2, List.range_succ_eq_map, List.map_cons, List.map_map, Nat.add_zero]
    congr 2
    apply List.map_congr_left
    intro i _
    simp only [Function.comp]
    congr 1
    omega

end Nachos

namespace Nachos

theorem BitMap.Find_some (bm : BitMap) (i : Nat) (h : BitMap.lowestClear bm.bits = some i) :
    bm.Find = ((i : Int), bm.Mark (i : Int)) := by
  simp [BitMap.Find, h]

theorem BitMap.Find_none (bm : BitMap) (h : BitMap.lowestClear bm.bits = none) :
    bm.Find = (-1, bm) := by
  simp [BitMap.Find, h]

theorem BitMap.lowestClear_ne_none (bm : BitMap) (g : Int) (hg0 : 0 ≤ g)
    (hg1 : g < bm.bits.length) (hfree : bm.Test g = false) :
    BitMap.lowestClear bm.bits ≠ none := by
  intro hnone
  have hlt : g.toNat < bm.bits.length := by omega
  have h := BitMap.lowestClear_none bm.bits hnone g.toNat hlt
  have hT : bm.Test g = true := by
    have := BitMap.test_natCast bm g.toNat
    rw [Int.toNat_of_nonneg hg0] at this
    rw [this, h]
    rfl
  rw [hT] at hfree
  exact Bool.noConfusion hfree

/-- C3: when some frame is free, `Machine::Find` returns the lowest-numbered
frame whose bit is clear, sets that bit and leaves every other bit (and the
rest of the machine) as it was; the frame returned was free before the call. -/
theorem Find_returns_lowest_free (m : Machine) (g : Int) (hg0 : 0 ≤ g)
    (hg1 : g < m.bitMap.bits.length) (hfree : m.bitMap.Test g = false) :
    ∃ f m2, m.Find = .ok f m2 ∧ 0 ≤ f ∧ f < m.bitMap.bits.length ∧
      m.bitMap.Test f = false ∧
      (∀ j : Int, 0 ≤ j → j < f → m.bitMap.Test j = true) ∧
      m2.bitMap.Test f = true ∧
      (∀ j : Int, j ≠ f → m2.bitMap.Test j = m.bitMap.Test j) ∧
      m2.bitMap.bits.length = m.bitMap.bits.length ∧
      m2 = { m with bitMap := m2.bitMap } := by
  have hne := BitMap.lowestClear_ne_none m.bitMap g hg0 hg1 hfree
  obtain ⟨i, hi⟩ := Option.ne_none_iff_exists'.mp hne
  obtain ⟨h1, h2, h3⟩ := BitMap.lowestClear_some m.bitMap.bits i hi
  have hF := BitMap.Find_some m.bitMap i hi
  have hne1 : ((i : Int) ≠ -1) := by omega
  have hi0 : (0 : Int) ≤ (i : Int) := by omega
  have hilt : (i : Int) < (m.bitMap.bits.length : Int) := by omega
  refine ⟨(i : Int), { m with bitMap := m.bitMap.Mark (i : Int) }, ?_, hi0, hilt, ?_, ?_, ?_, ?_, ?_, rfl⟩
  · simp only [Machine.Find, hF, hne1, ne_eq, not_false_eq_true, if_true]
  · rw [BitMap.test_natCast, h2]; rfl
  · intro j hj0 hji
    have hj := h3 j.toNat (by omega)
    have := BitMap.test_natCast m.bitMap j.toNat
    rw [Int.toNat_of_nonneg hj0] at this
    rw [this, hj]; rfl
  · show (m.bitMap.Mark (i : Int)).Test (i : Int) = true
    rw [BitMap.test_Mark m.bitMap _ _ hi0 hilt]; simp
  · intro j hj
    show (m.bitMap.Mark (i : Int)).Test j = m.bitMap.Test j
    rw [BitMap.test_Mark m.bitMap _ _ hi0 hilt]; simp [hj]
  · exact BitMap.length_Mark m.bitMap _

/-- C3 scenario: with four frames of which 1 and 3 are allocated a frame is
free, `Find` returns frame 0 and a second `Find` returns frame 2. -/
theorem Find_returns_lowest_free_witness :
    (∃ f m2, (bitmapOnly [false, true, false, true]).Find = .ok f m2 ∧ 0 ≤ f ∧
      f < (bitmapOnly [false, true, false, true]).bitMap.bits.length ∧
      (bitmapOnly [false, true, false, true]).bitMap.Test f = false ∧
      (∀ j : Int, 0 ≤ j → j < f → (bitmapOnly [false, true, false, true]).bitMap.Test j = true) ∧
      m2.bitMap.Test f = true ∧
      (∀ j : Int, j ≠ f → m2.bitMap.Test j = (bitmapOnly [false, true, false, true]).bitMap.Test j) ∧
      m2.bitMap.bits.length = (bitmapOnly [false, true, false, true]).bitMap.bits.length ∧
      m2 = { bitmapOnly [false, true, false, true] with bitMap := m2.bitMap }) ∧
    (bitmapOnly [false, true, false, true]).Find = .ok 0 (bitmapOnly [true, true, false, true]) ∧
    (bitmapOnly [true, true, false, true]).Find = .ok 2 (bitmapOnly [true, true, true, true]) ∧
    (bitmapOnly [false, true, false, true]).FindN 2 = .ok [0, 2] (bitmapOnly [true, true, true, true]) :=
  ⟨Find_returns_lowest_free (bitmapOnly [false, true, false, true]) 2 (by decide) (by decide)
    (by decide), by decide, by decide, by decide⟩

/-- C4: `Machine::Find` fails (its assertion aborts) exactly when every frame's
bit is set; the state at the abort is the state before the call, so the bitmap
is unchanged and no frame number is returned. `Find` never runs into undefined
behaviour. -/
theorem Find_fails_iff_all_allocated (m : Machine) :
    ((∃ s, m.Find = .assertFailed s) ↔
      ∀ j : Int, 0 ≤ j → j < m.bitMap.bits.length → m.bitMap.Test j = true) ∧
    (∀ s, m.Find = .assertFailed s → s = m) ∧
    ((∀ j : Int, 0 ≤ j → j < m.bitMap.bits.length → m.bitMap.Test j = true) →
      m.Find = .assertFailed m) ∧
    m.Find ≠ .undefinedBehaviour := by
  cases hlc : BitMap.lowestClear m.bitMap.bits with
  | none =>
    have hF := BitMap.Find_none m.bitMap hlc
    have hfail : m.Find = .assertFailed m := by
      simp [Machine.Find, hF]
    have hall : ∀ j : Int, 0 ≤ j → j < m.bitMap.bits.length → m.bitMap.Test j = true := by
      intro j hj0 hj1
      have hj := BitMap.lowestClear_none m.bitMap.bits hlc j.toNat (by omega)
      have := BitMap.test_natCast m.bitMap j.toNat
      rw [Int.toNat_of_nonneg hj0] at this
      rw [this, hj]; rfl
    refine ⟨⟨fun _ => hall, fun _ => ⟨m, hfail⟩⟩, ?_, fun _ => hfail, ?_⟩
    · intro s hs
      rw [hfail] at hs
      injection hs with hs
      exact hs.symm
    · rw [hfail]; intro h; cases h
  | some i =>
    have hF := BitMap.Find_some m.bitMap i hlc
    obtain ⟨h1, h2, _⟩ := BitMap.lowestClear_some m.bitMap.bits i hlc
    have hne1 : ((i : Int) ≠ -1) := by omega
    have hok : m.Find = .ok (i : Int) { m with bitMap := m.bitMap.Mark (i : Int) } := by
      simp only [Machine.Find, hF, hne1, ne_eq, not_false_eq_true, if_true]
    have hnot : ¬ ∀ j : Int, 0 ≤ j → j < m.bitMap.bits.length → m.bitMap.Test j = true := by
      intro hall
      have h := hall (i : Int) (by omega) (by omega)
      rw [BitMap.test_natCast, h2] at h
      exact Bool.noConfusion h
    refine ⟨⟨?_, fun h => absurd h hnot⟩, ?_, fun h => absurd h hnot, ?_⟩
    · rintro ⟨s, hs⟩
      rw [hok] at hs
      cases hs
    · intro s hs
      rw [hok] at hs
      cases hs
    · rw [hok]; intro h; cases h

theorem bits_of_new (cfg : Config) (host : Host) (debug : Bool) (m : Machine)
    (hnew : Machine.new cfg host debug = .ok () m) :
    m.bitMap.bits = List.replicate 0 true ++ List.replicate cfg.NumPhysPages false := by
  unfold Machine.new at hnew
  simp only at hnew
  split at hnew
  · injection hnew with _ hm
    subst hm
    simp [BitMap.new]
  · cases hnew

/-- C5: on a freshly constructed machine, for every `N ≤ NumPhysPages`, `N`
consecutive calls of `Machine::Find` all return, and they return the frames
`0, 1, ..., N-1` in this order: strictly ascending, so pairwise distinct. -/
theorem FindN_fresh_ascending (cfg : Config) (host : Host) (debug : Bool) (m : Machine)
    (hnew : Machine.new cfg host debug = .ok () m) (N : Nat) (hN : N ≤ cfg.NumPhysPages) :
    ∃ fs m2, m.FindN N = .ok fs m2 ∧
      fs = (List.range N).map (fun i : Nat => (i : Int)) ∧
      fs.Pairwise (· < ·) ∧ fs.Nodup := by
  have hb := bits_of_new cfg host debug m hnew
  have h := FindN_prefix N m 0 cfg.NumPhysPages hN hb
  have hpw : ((List.range N).map (fun i : Nat => (i : Int))).Pairwise (· < ·) := by
    rw [List.pairwise_map]
    exact (List.pairwise_lt_range N).imp (fun hab => by exact_mod_cast hab)
  have heq : (List.range N).map (fun i => ((0 + i : Nat) : Int)) =
      (List.range N).map (fun i : Nat => (i : Int)) := by
    apply List.map_congr_left
    intro i _
    simp
  rw [heq] at h
  exact ⟨_, _, h, rfl, hpw, hpw.imp (fun hab => ne_of_lt hab)⟩

/-- C5 at a concrete build: on the four-frame machine three calls of `Find`
return frames 0, 1, 2. -/
theorem FindN_fresh_ascending_witness :
    Machine.new smallFIFO zeroHost false =
      .ok () { bitmapOnly [false, false, false, false] with
               registers := List.replicate 40 0, mainMemory := List.replicate 512 0,
               tlb := some (freshTlb smallFIFO zeroHost) } ∧
    (3 ≤ smallFIFO.NumPhysPages) ∧
    ∃ fs m2, ({ bitmapOnly [false, false, false, false] with
               registers := List.replicate 40 0, mainMemory := List.replicate 512 0,
               tlb := some (freshTlb smallFIFO zeroHost) } : Machine).FindN 3 = .ok fs m2 ∧
      fs = (List.range 3).map (fun i : Nat => (i : Int)) ∧
      fs.Pairwise (· < ·) ∧ fs.Nodup :=
  ⟨rfl, by decide, FindN_fresh_ascending smallFIFO zeroHost false _ rfl 3 (by decide)⟩

end Nachos

namespace Nachos

/-- C6: for an in-range frame `f`, `Machine::Clear(f)` returns without error,
leaves bit `f` clear and every other bit (and the rest of the machine) as it
was; on a frame that is already free it changes nothing; and a second
`Clear(f)` leaves the state a single `Clear(f)` produced. -/
theorem Clear_idempotent (m : Machine) (f : Int) (_hf0 : 0 ≤ f)
    (_hf1 : f < m.bitMap.bits.length) :
    ∃ m1, m.Clear f = .ok () m1 ∧
      m1.bitMap.Test f = false ∧
      (∀ j : Int, j ≠ f → m1.bitMap.Test j = m.bitMap.Test j) ∧
      m1.bitMap.bits.length = m.bitMap.bits.length ∧
      m1 = { m with bitMap := m1.bitMap } ∧
      (m.bitMap.Test f = false → m1 = m) ∧
      m1.Clear f = .ok () m1 := by
  by_cases hT : m.bitMap.Test f = true
  · have hc : ({ m with bitMap := m.bitMap.Clear f } : Machine).bitMap.Test f = false := by
      show (m.bitMap.Clear f).Test f = false
      rw [BitMap.test_Clear]; simp
    refine ⟨{ m with bitMap := m.bitMap.Clear f }, ?_, hc, ?_, ?_, rfl, ?_, ?_⟩
    · simp [Machine.Clear, hT]
    · intro j hj
      show (m.bitMap.Clear f).Test j = m.bitMap.Test j
      rw [BitMap.test_Clear]; simp [hj]
    · exact BitMap.length_Clear m.bitMap f
    · intro h; rw [h] at hT; exact Bool.noConfusion hT
    · simp only [Machine.Clear, hc, Bool.false_eq_true, if_false]
  · have hF : m.bitMap.Test f = false := by simpa using hT
    refine ⟨m, ?_, hF, fun _ _ => rfl, rfl, rfl, fun _ => rfl, ?_⟩
    · simp [Machine.Clear, hF]
    · simp [Machine.Clear, hF]

/-- C6 at concrete states: clearing allocated frame 1 of `[0,1,1,0]` gives
`[0,0,1,0]`, and clearing it again, or clearing free frame 0, changes nothing. -/
theorem Clear_idempotent_witness :
    (∃ m1, (bitmapOnly [false, true, true, false]).Clear 1 = .ok () m1 ∧
      m1.bitMap.Test 1 = false ∧
      (∀ j : Int, j ≠ 1 → m1.bitMap.Test j = (bitmapOnly [false, true, true, false]).bitMap.Test j) ∧
      m1.bitMap.bits.length = (bitmapOnly [false, true, true, false]).bitMap.bits.length ∧
      m1 = { bitmapOnly [false, true, true, false] with bitMap := m1.bitMap } ∧
      ((bitmapOnly [false, true, true, false]).bitMap.Test 1 = false →
        m1 = bitmapOnly [false, true, true, false]) ∧
      m1.Clear 1 = .ok () m1) ∧
    (bitmapOnly [false, true, true, false]).Clear 1 = .ok () (bitmapOnly [false, false, true, false]) ∧
    (bitmapOnly [false, false, true, false]).Clear 1 = .ok () (bitmapOnly [false, false, true, false]) ∧
    (bitmapOnly [false, true, true, false]).Clear 0 = .ok () (bitmapOnly [false, true, true, false]) :=
  ⟨Clear_idempotent (bitmapOnly [false, true, true, false]) 1 (by decide) (by decide),
    by decide, by decide, by decide⟩

theorem readPtr_some_natCast (tbl : List TranslationEntry) (i : Nat) :
    readPtr (some tbl) (i : Int) = tbl[i]? := by
  simp [readPtr, readAt]

theorem clearAllLoop_spec (tbl : List TranslationEntry) (idx : List Nat) (bm : BitMap)
    (hidx : ∀ i ∈ idx, i < tbl.length) :
    ∃ bm2, clearAllLoop (some tbl) idx bm = some bm2 ∧
      bm2.bits.length = bm.bits.length ∧
      ∀ f : Int, bm2.Test f = true ↔
        (bm.Test f = true ∧ ∀ i ∈ idx, ∀ e, tbl[i]? = some e → e.physicalPage ≠ f) := by
  induction idx generalizing bm with
  | nil => exact ⟨bm, rfl, rfl, fun f => by simp⟩
  | cons i rest ih =>
    have hi : i < tbl.length := hidx i (List.mem_cons_self _ _)
    have hget : tbl[i]? = some tbl[i] := List.getElem?_eq_getElem hi
    obtain ⟨bm2, h1, h2, h3⟩ :=
      ih (if bm.Test tbl[i].physicalPage then bm.Clear tbl[i].physicalPage else bm)
        (fun j hj => hidx j (List.mem_cons_of_mem _ hj))
    refine ⟨bm2, ?_, ?_, ?_⟩
    · rw [clearAllLoop, readPtr_some_natCast, hget]
      exact h1
    · rw [h2]
      split
      · exact BitMap.length_Clear _ _
      · rfl
    · intro f
      rw [h3 f]
      have hstep : (if bm.Test tbl[i].physicalPage then bm.Clear tbl[i].physicalPage else bm).Test f
          = true ↔ (bm.Test f = true ∧ tbl[i].physicalPage ≠ f) := by
        by_cases hT : bm.Test tbl[i].physicalPage = true
        · rw [if_pos hT, BitMap.test_Clear]
          by_cases hfp : f = tbl[i].physicalPage
          · simp [hfp]
          · have : tbl[i].physicalPage ≠ f := fun h => hfp h.symm
            simp [hfp, this]
        · rw [if_neg hT]
          constructor
          · intro hf
            refine ⟨hf, fun h => hT ?_⟩
            rw [h]; exact hf
          · exact fun h => h.1
      rw [hstep]
      constructor
      · rintro ⟨⟨ha, hb⟩, hc⟩
        refine ⟨ha, ?_⟩
        intro j hj e he
        rcases List.mem_cons.mp hj with rfl | hj
        · rw [hget] at he
          injection he with he
          rw [← he]; exact hb
        · exact hc j hj e he
      · rintro ⟨ha, hb⟩
        exact ⟨⟨ha, hb i (List.mem_cons_self _ _) _ hget⟩,
          fun j hj e he => hb j (List.mem_cons_of_mem _ hj) e he⟩

/-- C1 (failing input): in a `USE_TLB` build `ClearAll` takes the frame numbers
from `tlb[i]` for `i < pageTableSize`, not from the page table as the build
without `USE_TLB` does. On `clearAllDemo` the page table's only entry
references frame 1 and TLB slot 0 references frame 2: `ClearAll` returns with
frame 1 still allocated and frame 2 released, so it does not release exactly
the page table's frames, while the same state in the build without `USE_TLB`
releases frame 1. On `clearAllInvalidDemo` it releases frame 0, named only by
an invalid TLB slot, and keeps frame 1. On `clearAllOverrunDemo`, eight pages
and four TLB slots, it reads past the end of the TLB array. -/
theorem ClearAll_USE_TLB_frees_tlb_frames :
    stockFIFO.USE_TLB = true ∧
    clearAllDemo.pageTable = some [mapping 0 1 0] ∧ clearAllDemo.pageTableSize = 1 ∧
    clearAllDemo.ClearAll stockFIFO =
      .ok () { clearAllDemo with bitMap := ⟨[false, true, false, false]⟩ } ∧
    ¬ (∃ m2, clearAllDemo.ClearAll stockFIFO = .ok () m2 ∧
        ∀ f : Int, m2.bitMap.Test f = true ↔
          (clearAllDemo.bitMap.Test f = true ∧
            ∀ i : Nat, i < clearAllDemo.pageTableSize →
              ∀ e, [mapping 0 1 0][i]? = some e → e.physicalPage ≠ f)) ∧
    clearAllDemo.ClearAll stockLinear =
      .ok () { clearAllDemo with bitMap := ⟨[false, false, true, false]⟩ } ∧
    (∀ e ∈ freshTlb stockFIFO zeroHost, e.valid = false) ∧
    clearAllInvalidDemo.ClearAll stockFIFO =
      .ok () { clearAllInvalidDemo with bitMap := ⟨[false, true, false, false]⟩ } ∧
    clearAllOverrunDemo.ClearAll stockFIFO = .undefinedBehaviour := by
  have hrun : clearAllDemo.ClearAll stockFIFO =
      .ok () { clearAllDemo with bitMap := ⟨[false, true, false, false]⟩ } := by decide
  refine ⟨rfl, rfl, rfl, hrun, ?_, by decide, by decide, by decide, by decide⟩
  rintro ⟨m2, hm2, hf⟩
  rw [hrun] at hm2
  injection hm2 with _ hm2
  subst hm2
  have h1 := (hf 1).mp (by decide)
  exact h1.2 0 (by decide) (mapping 0 1 0) rfl rfl

/-- What `ClearAll` does in either build, while its reads stay inside the
table: it returns and releases exactly the frames referenced by the first
`pageTableSize` entries of the table it reads, the page table in a build
without `USE_TLB` and the TLB array in a `USE_TLB` build. A frame is allocated
afterwards exactly when it was allocated before and no such entry references
it; nothing else in the machine changes. -/
theorem ClearAll_releases_table_frames (cfg : Config) (m : Machine)
    (tbl : List TranslationEntry) (htbl : m.clearAllTable cfg = some tbl)
    (hsize : m.pageTableSize ≤ tbl.length) :
    ∃ m2, m.ClearAll cfg = .ok () m2 ∧
      m2 = { m with bitMap := m2.bitMap } ∧
      m2.bitMap.bits.length = m.bitMap.bits.length ∧
      ∀ f : Int, m2.bitMap.Test f = true ↔
        (m.bitMap.Test f = true ∧
          ∀ i : Nat, i < m.pageTableSize → ∀ e, tbl[i]? = some e → e.physicalPage ≠ f) := by
  obtain ⟨bm2, h1, h2, h3⟩ := clearAllLoop_spec tbl (List.range m.pageTableSize) m.bitMap
    (fun i hi => lt_of_lt_of_le (List.mem_range.mp hi) hsize)
  refine ⟨{ m with bitMap := bm2 }, ?_, rfl, h2, ?_⟩
  · simp only [Machine.ClearAll, htbl, h1]
  · intro f
    rw [show ({ m with bitMap := bm2 } : Machine).bitMap = bm2 from rfl, h3 f]
    simp only [List.mem_range]

/-- The frames `ClearAll` releases at concrete builds: without `USE_TLB` the
demo state releases frame 1, the page table's frame; with `USE_TLB` it
releases frame 2, the frame of TLB slot 0. -/
theorem ClearAll_releases_table_frames_witness :
    (clearAllDemo.clearAllTable stockLinear = some [mapping 0 1 0] ∧
      clearAllDemo.pageTableSize ≤ [mapping 0 1 0].length ∧
      ∃ m2, clearAllDemo.ClearAll stockLinear = .ok () m2 ∧
        m2 = { clearAllDemo with bitMap := m2.bitMap } ∧
        m2.bitMap.bits.length = clearAllDemo.bitMap.bits.length ∧
        ∀ f : Int, m2.bitMap.Test f = true ↔
          (clearAllDemo.bitMap.Test f = true ∧
            ∀ i : Nat, i < clearAllDemo.pageTableSize →
              ∀ e, [mapping 0 1 0][i]? = some e → e.physicalPage ≠ f)) ∧
    clearAllDemo.ClearAll stockLinear =
      .ok () { clearAllDemo with bitMap := ⟨[false, false, true, false]⟩ } ∧
    clearAllDemo.ClearAll stockFIFO =
      .ok () { clearAllDemo with bitMap := ⟨[false, true, false, false]⟩ } :=
  ⟨⟨rfl, by decide,
    ClearAll_releases_table_frames stockLinear clearAllDemo [mapping 0 1 0] rfl (by decide)⟩,
    by decide, by decide⟩

end Nachos

namespace Nachos

/-! ## Register file and traps -/

theorem readAt_natCast {α : Type} (a : List α) (i : Nat) : readAt a (i : Int) = a[i]? := by
  simp [readAt]

theorem readAt_eq_getElem? {α : Type} (a : List α) (i : Int) (h0 : 0 ≤ i) :
    readAt a i = a[i.toNat]? := by
  simp [readAt, h0]

theorem modifyAt_of_lt {α : Type} (a : List α) (i : Int) (f : α → α) (h0 : 0 ≤ i)
    (h1 : i < a.length) :
    ∃ x, readAt a i = some x ∧ modifyAt a i f = some (a.set i.toNat (f x)) := by
  have hlt : i.toNat < a.length := by omega
  have hr : readAt a i = some a[i.toNat] := by
    rw [readAt_eq_getElem? a i h0, List.getElem?_eq_getElem hlt]
  exact ⟨a[i.toNat], hr, by simp [modifyAt, hr]⟩

theorem modifyAt_some {α : Type} (a b : List α) (i : Int) (f : α → α)
    (h : modifyAt a i f = some b) :
    0 ≤ i ∧ i < a.length ∧ ∃ x, a[i.toNat]? = some x ∧ b = a.set i.toNat (f x) := by
  unfold modifyAt at h
  cases hr : readAt a i with
  | none => rw [hr] at h; cases h
  | some x =>
    rw [hr] at h
    injection h with h
    unfold readAt at hr
    by_cases h0 : 0 ≤ i
    · rw [if_pos h0] at hr
      have hlt : i.toNat < a.length := by
        by_contra hge
        rw [List.getElem?_eq_none (by omega)] at hr
        cases hr
      exact ⟨h0, by omega, x, hr, h.symm⟩
    · rw [if_neg h0] at hr
      cases hr

theorem readAt_set_same {α : Type} (a : List α) (i : Int) (x : α) (h0 : 0 ≤ i)
    (h1 : i < a.length) : readAt (a.set i.toNat x) i = some x := by
  have hlt : i.toNat < a.length := by omega
  rw [readAt_eq_getElem? _ i h0, List.getElem?_set]
  simp [hlt]

theorem readAt_set_other {α : Type} (a : List α) (i j : Int) (x : α) (h0 : 0 ≤ i)
    (hij : i ≠ j) : readAt (a.set i.toNat x) j = readAt a j := by
  by_cases hj : 0 ≤ j
  · have hne : i.toNat ≠ j.toNat := by omega
    rw [readAt_eq_getElem? _ j hj, readAt_eq_getElem? _ j hj, List.getElem?_set]
    simp [hne]
  · simp [readAt, hj]

/-- C10: for every register index `i` with `0 ≤ i < NumTotalRegs` and every
value `v` (so every 32-bit one), `WriteRegister(i, v)` returns and a following
`ReadRegister(i)` returns `v`, on a register file of `NumTotalRegs` entries. -/
theorem WriteRegister_then_ReadRegister (cfg : Config) (m : Machine) (i v : Int)
    (hlen : m.registers.length = cfg.NumTotalRegs) (h0 : 0 ≤ i)
    (h1 : i < cfg.NumTotalRegs) :
    ∃ m1, m.WriteRegister cfg i v = .ok () m1 ∧ m1.ReadRegister cfg i = .ok v m1 := by
  have hlt : i < (m.registers.length : Int) := by omega
  obtain ⟨x, _, hm⟩ := modifyAt_of_lt m.registers i (fun _ => v) h0 hlt
  refine ⟨{ m with registers := m.registers.set i.toNat v }, ?_, ?_⟩
  · simp only [Machine.WriteRegister, h0, h1, and_self, if_true, hm]
  · have hr : readAt (m.registers.set i.toNat v) i = some v :=
      readAt_set_same m.registers i v h0 hlt
    simp only [Machine.ReadRegister, h0, h1, and_self, if_true, hr]

/-- C10 at concrete values: on the stock 40-register file, writing
`-2147483648` to register 39 and reading it back returns `-2147483648`. -/
theorem WriteRegister_then_ReadRegister_witness :
    (registersOnly (List.replicate 40 0)).registers.length = stockFIFO.NumTotalRegs ∧
    ((0 : Int) ≤ 39 ∧ (39 : Int) < stockFIFO.NumTotalRegs) ∧
    ∃ m1, (registersOnly (List.replicate 40 0)).WriteRegister stockFIFO 39 (-2147483648)
        = .ok () m1 ∧ m1.ReadRegister stockFIFO 39 = .ok (-2147483648) m1 :=
  ⟨rfl, by decide,
    WriteRegister_then_ReadRegister stockFIFO (registersOnly (List.replicate 40 0)) 39
      (-2147483648) rfl (by decide) (by decide)⟩

end Nachos

namespace Nachos

theorem DelayedLoad_keeps (cfg : Config) (nextReg nextValue : Int) (m : Machine)
    (t : Int) (b : Nat)
    (hlen : m.registers.length = cfg.NumTotalRegs)
    (hL : cfg.LoadReg < cfg.NumTotalRegs) (hV : cfg.LoadValueReg < cfg.NumTotalRegs)
    (hbL : b ≠ cfg.LoadReg) (hbV : b ≠ cfg.LoadValueReg)
    (ht : readAt m.registers cfg.LoadReg = some t) (ht0 : 0 ≤ t)
    (ht1 : t < cfg.NumTotalRegs) (htb : t ≠ b) :
    ∃ m1, DelayedLoad cfg nextReg nextValue m = .ok () m1 ∧
      readAt m1.registers b = readAt m.registers b ∧
      m1.registers.length = m.registers.length := by
  have hVlt : ((cfg.LoadValueReg : Nat) : Int) < (m.registers.length : Int) := by omega
  obtain ⟨v, hv, _⟩ := modifyAt_of_lt m.registers (cfg.LoadValueReg : Int) id (by omega) hVlt
  obtain ⟨_, _, h1⟩ := modifyAt_of_lt m.registers t (fun _ => v) ht0 (by omega)
  have hlen1 : (m.registers.set t.toNat v).length = m.registers.length := by simp
  obtain ⟨_, _, h2⟩ := modifyAt_of_lt (m.registers.set t.toNat v) (cfg.LoadReg : Int)
    (fun _ => nextReg) (by omega) (by omega)
  have hlen2 : ((m.registers.set t.toNat v).set ((cfg.LoadReg : Int)).toNat nextReg).length
      = m.registers.length := by simp
  obtain ⟨_, _, h3⟩ := modifyAt_of_lt
    ((m.registers.set t.toNat v).set ((cfg.LoadReg : Int)).toNat nextReg)
    (cfg.LoadValueReg : Int) (fun _ => nextValue) (by omega) (by omega)
  refine ⟨{ m with registers := (List.set
      (List.set (m.registers.set t.toNat v) ((cfg.LoadReg : Int)).toNat nextReg)
      ((cfg.LoadValueReg : Int)).toNat nextValue) }, ?_, ?_, ?_⟩
  · simp only [DelayedLoad, ht, hv, h1, h2, h3]
  · show readAt (((m.registers.set t.toNat v).set ((cfg.LoadReg : Int)).toNat nextReg).set
        ((cfg.LoadValueReg : Int)).toNat nextValue) (b : Int) = readAt m.registers (b : Int)
    rw [readAt_set_other _ _ _ _ (by omega) (by omega),
      readAt_set_other _ _ _ _ (by omega) (by omega),
      readAt_set_other _ _ _ _ ht0 htb]
  · simp

/-- C9 (as stated, refuted): the fault-address register need not equal `addr`
after `RaiseException` returns, and the mode flag need not equal its pre-call
value. With the stock constants and a handler that stores 0 in `BadVAddrReg`,
`RaiseException(PageFaultException, 1234)` returns with `BadVAddrReg = 0`; and
a call made in system mode with a handler that does nothing returns in user
mode. -/
theorem RaiseException_counterexample :
    (∃ s2, RaiseException stockFIFO (clobberHandler stockFIFO)
        ExceptionType.PageFaultException 1234
        { machine := registersOnly (List.replicate 40 0), status := MachineStatus.UserMode }
        = .ok () s2 ∧
      readAt s2.machine.registers stockFIFO.BadVAddrReg = some 0 ∧
      readAt s2.machine.registers stockFIFO.BadVAddrReg ≠ some 1234) ∧
    (∃ s2, RaiseException stockFIFO idleHandler ExceptionType.SyscallException 0
        { machine := registersOnly (List.replicate 40 0), status := MachineStatus.SystemMode }
        = .ok () s2 ∧
      s2.status ≠ MachineStatus.SystemMode) := by
  refine ⟨⟨_, rfl, by decide, by decide⟩, ⟨_, rfl, by decide⟩⟩

/-- C9 (amended): whatever the trap kind, the fault address, the pre-call state
and the handler, a `RaiseException` that returns leaves the mode flag at user
mode, which is its pre-call value when the call was made in user mode. On a
register file of `NumTotalRegs` entries whose pending delayed load targets an
in-range register other than `BadVAddrReg`, with a handler that leaves
`BadVAddrReg` as it finds it, `RaiseException` returns and the fault-address
register then equals `addr`. -/
theorem RaiseException_user_mode_and_fault_address (cfg : Config)
    (handler : ExceptionType → Sys → Sys) (which : ExceptionType) (addr : Int) (s : Sys) :
    (∀ s2, RaiseException cfg handler which addr s = .ok () s2 →
      s2.status = MachineStatus.UserMode ∧
      (s.status = MachineStatus.UserMode → s2.status = s.status)) ∧
    (∀ t : Int,
      s.machine.registers.length = cfg.NumTotalRegs →
      cfg.BadVAddrReg < cfg.NumTotalRegs →
      cfg.LoadReg < cfg.NumTotalRegs → cfg.LoadValueReg < cfg.NumTotalRegs →
      cfg.BadVAddrReg ≠ cfg.LoadReg → cfg.BadVAddrReg ≠ cfg.LoadValueReg →
      readAt s.machine.registers cfg.LoadReg = some t →
      0 ≤ t → t < cfg.NumTotalRegs → t ≠ cfg.BadVAddrReg →
      (∀ u : Sys, readAt (handler which u).machine.registers cfg.BadVAddrReg =
        readAt u.machine.registers cfg.BadVAddrReg) →
      ∃ s2, RaiseException cfg handler which addr s = .ok () s2 ∧
        s2.status = MachineStatus.UserMode ∧
        readAt s2.machine.registers cfg.BadVAddrReg = some addr) := by
  constructor
  · intro s2 h
    unfold RaiseException at h
    split at h
    · cases h
    · split at h
      · cases h
      · cases h
      · injection h with _ h
        subst h
        exact ⟨rfl, fun hs => hs.symm ▸ rfl⟩
  · intro t hlen hB hL hV hBL hBV ht ht0 ht1 htB hh
    have hBlt : ((cfg.BadVAddrReg : Nat) : Int) < (s.machine.registers.length : Int) := by
      omega
    have hB0 : (0 : Int) ≤ ((cfg.BadVAddrReg : Nat) : Int) := by omega
    obtain ⟨_, _, hw⟩ := modifyAt_of_lt s.machine.registers (cfg.BadVAddrReg : Int)
      (fun _ => addr) hB0 hBlt
    have hread : readAt (s.machine.registers.set ((cfg.BadVAddrReg : Int)).toNat addr)
        (cfg.BadVAddrReg : Int) = some addr :=
      readAt_set_same s.machine.registers _ addr hB0 hBlt
    have htgt : readAt (s.machine.registers.set ((cfg.BadVAddrReg : Int)).toNat addr)
        (cfg.LoadReg : Int) = some t := by
      rw [readAt_set_other _ _ _ _ hB0 (by omega)]
      exact ht
    obtain ⟨m1, hd, hk, _⟩ := DelayedLoad_keeps cfg 0 0
      { s.machine with
        registers := s.machine.registers.set ((cfg.BadVAddrReg : Int)).toNat addr }
      t cfg.BadVAddrReg (by simpa using hlen) hL hV hBL hBV htgt ht0 ht1 htB
    refine ⟨{ handler which { machine := m1, status := MachineStatus.SystemMode } with
      status := MachineStatus.UserMode }, ?_, rfl, ?_⟩
    · simp only [RaiseException, hw, hd]
    · show readAt (handler which _).machine.registers (cfg.BadVAddrReg : Int) = some addr
      rw [hh, ← hread]
      exact hk

/-- C9 (amended) at a concrete state: with the stock constants, 40 zeroed
registers (pending load target 0) and a handler that does nothing, a page
fault at address 1234 raised in user mode returns in user mode with
`BadVAddrReg = 1234`. -/
theorem RaiseException_user_mode_and_fault_address_witness :
    (registersOnly (List.replicate 40 0)).registers.length = stockFIFO.NumTotalRegs ∧
    readAt (registersOnly (List.replicate 40 0)).registers stockFIFO.LoadReg = some 0 ∧
    ∃ s2, RaiseException stockFIFO idleHandler ExceptionType.PageFaultException 1234
        { machine := registersOnly (List.replicate 40 0), status := MachineStatus.UserMode }
        = .ok () s2 ∧
      s2.status = MachineStatus.UserMode ∧
      readAt s2.machine.registers stockFIFO.BadVAddrReg = some 1234 :=
  ⟨rfl, by decide,
    (RaiseException_user_mode_and_fault_address stockFIFO idleHandler
      ExceptionType.PageFaultException 1234
      { machine := registersOnly (List.replicate 40 0), status := MachineStatus.UserMode }).2
      0 rfl (by decide) (by decide) (by decide) (by decide) (by decide) (by decide)
      (by decide) (by decide) (by decide) (fun _ => rfl)⟩

end Nachos

namespace Nachos

/-! ## TLB refill -/

theorem shiftSteps_spec (tlb : List TranslationEntry) (k : Nat) (hk : k + 1 ≤ tlb.length) :
    ((List.range k).foldl shiftStep tlb).length = tlb.length ∧
    ∀ j, ((List.range k).foldl shiftStep tlb)[j]? = if j < k then tlb[j + 1]? else tlb[j]? := by
  induction k with
  | zero => simp
  | succ k ih =>
    obtain ⟨hlen, hget⟩ := ih (by omega)
    rw [List.range_succ, List.foldl_append]
    simp only [List.foldl_cons, List.foldl_nil]
    generalize (List.range k).foldl shiftStep tlb = t at hlen hget
    have hk1 : k + 1 < tlb.length := by omega
    have hnext : t[k + 1]? = some tlb[k + 1] := by
      rw [hget (k + 1), if_neg (by omega), List.getElem?_eq_getElem hk1]
    have hstep : shiftStep t k = t.set k tlb[k + 1] := by
      simp only [shiftStep, hnext]
    rw [hstep]
    refine ⟨by simpa using hlen, ?_⟩
    intro j
    rw [List.getElem?_set]
    by_cases hjk : k = j
    · subst hjk
      have : k < t.length := by omega
      simp [this, List.getElem?_eq_getElem hk1]
    · rw [if_neg hjk, hget j]
      by_cases hlt : j < k
      · simp [hlt, show j < k + 1 by omega]
      · simp [hlt, show ¬ j < k + 1 by omega]

theorem fifoShift_set_last (e0 : TranslationEntry) (rest : List TranslationEntry)
    (d : TranslationEntry) :
    (fifoShift (e0 :: rest)).set rest.length d = rest ++ [d] := by
  obtain ⟨hlen, hget⟩ := shiftSteps_spec (e0 :: rest) rest.length (by simp)
  have hfs : fifoShift (e0 :: rest) = (List.range rest.length).foldl shiftStep (e0 :: rest) := by
    simp [fifoShift]
  rw [hfs]
  apply List.ext_getElem?
  intro j
  rw [List.getElem?_set, hlen]
  by_cases hj : rest.length = j
  · subst hj
    simp
  · rw [if_neg hj, hget j]
    by_cases hlt : j < rest.length
    · simp [hlt, List.getElem?_append_left hlt]
    · have hgt : rest.length < j := by omega
      have h1 : (e0 :: rest)[j]? = none := List.getElem?_eq_none (by simp; omega)
      have h2 : (rest ++ [d])[j]? = none := List.getElem?_eq_none (by simp; omega)
      simp [hlt, h1, h2]

theorem fifoShift_length (tlb : List TranslationEntry) :
    (fifoShift tlb).length = tlb.length := by
  cases tlb with
  | nil => simp [fifoShift]
  | cons e0 rest =>
    have := (shiftSteps_spec (e0 :: rest) rest.length (by simp)).1
    simpa [fifoShift] using this

theorem scanInvalid_all_valid (tlb : List TranslationEntry) (i : Nat)
    (h : ∀ e ∈ tlb, e.valid = true) : scanInvalid tlb i = -1 := by
  induction tlb generalizing i with
  | nil => rfl
  | cons e es ih =>
    have he : e.valid = true := h e (List.mem_cons_self _ _)
    rw [scanInvalid, if_neg (by simp [he])]
    exact ih (i + 1) (fun x hx => h x (List.mem_cons_of_mem _ hx))

theorem scanInvalid_spec (tlb : List TranslationEntry) (i : Nat) :
    (scanInvalid tlb i = -1 ∧ ∀ e ∈ tlb, e.valid = true) ∨
    (∃ j e, scanInvalid tlb i = ((i + j : Nat) : Int) ∧ tlb[j]? = some e ∧ e.valid = false ∧
      ∀ k x, k < j → tlb[k]? = some x → x.valid = true) := by
  induction tlb generalizing i with
  | nil => exact Or.inl ⟨rfl, fun e he => by cases he⟩
  | cons e es ih =>
    by_cases he : e.valid = false
    · refine Or.inr ⟨0, e, ?_, by simp, he, fun k x hk => by omega⟩
      rw [scanInvalid, if_pos he]; rfl
    · have hv : e.valid = true := by simpa using he
      rw [scanInvalid, if_neg he]
      rcases ih (i + 1) with ⟨h1, h2⟩ | ⟨j, x, h1, h2, h3, h4⟩
      · refine Or.inl ⟨h1, ?_⟩
        intro y hy
        rcases List.mem_cons.mp hy with rfl | hy
        · exact hv
        · exact h2 y hy
      · refine Or.inr ⟨j + 1, x, ?_, by simpa using h2, h3, ?_⟩
        · rw [h1]; congr 1; omega
        · intro k y hk hy
          cases k with
          | zero =>
            simp only [List.getElem?_cons_zero, Option.some.injEq] at hy
            rw [← hy]; exact hv
          | succ k => exact h4 k y (by omega) (by simpa using hy)

theorem tlbFull_iff (tlb : List TranslationEntry) :
    tlbFull tlb = true ↔ ∀ e ∈ tlb, e.valid = true := by
  simp [tlbFull]

end Nachos

namespace Nachos

theorem set_snoc {α : Type} (rest : List α) (y z : α) :
    (rest ++ [y]).set rest.length z = rest ++ [z] := by
  induction rest with
  | nil => rfl
  | cons a as ih => simp [ih]

theorem readAt_snoc {α : Type} (rest : List α) (y : α) :
    readAt (rest ++ [y]) (rest.length : Int) = some y := by
  rw [readAt_natCast]
  simp

theorem modifyAt_snoc {α : Type} (rest : List α) (y : α) (f : α → α) :
    modifyAt (rest ++ [y]) (rest.length : Int) f = some (rest ++ [f y]) := by
  simp only [modifyAt, readAt_snoc, Int.toNat_ofNat, set_snoc]

theorem tlbReplace_FIFO (cfg : Config) (pt : Option (List TranslationEntry)) (vpn : Int)
    (e0 : TranslationEntry) (rest : List TranslationEntry) (pe : TranslationEntry)
    (hpolicy : cfg.TLB_LRU = false) (hpt : readPtr pt vpn = some pe) :
    ∃ x : TranslationEntry, tlbReplace cfg pt vpn (e0 :: rest) =
      some ((rest.length : Int), rest ++ [{ x with physicalPage := pe.physicalPage }]) := by
  have hidx : (((e0 :: rest).length : Nat) : Int) - 1 = (rest.length : Int) := by
    simp
  have hlen := fifoShift_length (e0 :: rest)
  obtain ⟨x, _, hm⟩ := modifyAt_of_lt (fifoShift (e0 :: rest)) (rest.length : Int)
    (fun e => { e with physicalPage := pe.physicalPage }) (by omega)
    (by rw [hlen]; simp)
  refine ⟨x, ?_⟩
  rw [Int.toNat_ofNat, fifoShift_set_last] at hm
  simp only [tlbReplace, hpolicy, Bool.false_eq_true, if_false, hpt, hidx, hm]

/-- C7 (as stated, refuted): a FIFO refill on a full TLB need not leave
`[e1, ..., e(k-1), D]`. The constructor leaves the page table pointer null;
four refills, for pages 0..3, fill the four slots of the constructed machine,
and the TLB is then full. The refill for the new page 4 reads
`pageTable[4]` through the null pointer: it has no defined result, so it does
not leave the TLB as pages 1, 2, 3 followed by page 4. -/
theorem tlbSwap_FIFO_null_pageTable_counterexample :
    ∃ (m0 m4 : Machine) (tlb : List TranslationEntry),
      Machine.new smallFIFO zeroHost false = .ok () m0 ∧
      m0.tlbSwaps smallFIFO [0, 128, 256, 384] = .ok () m4 ∧
      m4.tlb = some tlb ∧
      tlb = [mapping 0 0 0, mapping 1 0 0, mapping 2 0 0, mapping 3 0 0] ∧
      tlbFull tlb = true ∧ smallFIFO.TLB_LRU = false ∧
      tlbHolds tlb (Int.tdiv 512 smallFIFO.PageSize) = false ∧
      m4.pageTable = none ∧
      m4.tlbSwap smallFIFO 512 = .undefinedBehaviour ∧
      ¬ (∃ (log : SwapLog) (m5 : Machine) (d : TranslationEntry),
          m4.tlbSwap smallFIFO 512 = .ok log m5 ∧
          m5.tlb = some [mapping 1 0 0, mapping 2 0 0, mapping 3 0 0, d]) := by
  have hrun : ({ bitmapOnly [false, false, false, false] with
        registers := List.replicate 40 0, mainMemory := List.replicate 512 0,
        tlb := some [mapping 0 0 0, mapping 1 0 0, mapping 2 0 0, mapping 3 0 0] } :
        Machine).tlbSwap smallFIFO 512 = .undefinedBehaviour := rfl
  refine ⟨{ bitmapOnly [false, false, false, false] with
      registers := List.replicate 40 0, mainMemory := List.replicate 512 0,
      tlb := some (freshTlb smallFIFO zeroHost) },
    { bitmapOnly [false, false, false, false] with
      registers := List.replicate 40 0, mainMemory := List.replicate 512 0,
      tlb := some [mapping 0 0 0, mapping 1 0 0, mapping 2 0 0, mapping 3 0 0] },
    _, rfl, rfl, rfl, rfl, by decide, rfl, by decide, rfl, hrun, ?_⟩
  rintro ⟨log, m5, d, h, _⟩
  rw [hrun] at h
  cases h

/-- C7 (amended): under the FIFO policy, on a full TLB `[e0, e1, ..., e(k-1)]`,
a refill `tlbSwap` for a virtual address whose page indexes an entry of the
page table returns and leaves the TLB as `[e1, ..., e(k-1), D]`: `e0` is
dropped, the other entries move one index toward 0 unchanged and in order, and
the last index holds the new mapping `D` (valid, the new virtual page, the
frame of the page-table entry, flags clear, hit counter 0). Nothing else in
the machine changes. -/
theorem tlbSwap_FIFO_evicts_oldest (cfg : Config) (m : Machine) (e0 : TranslationEntry)
    (rest : List TranslationEntry) (vaddr : Int) (pe : TranslationEntry)
    (hpolicy : cfg.TLB_LRU = false) (hps : cfg.PageSize ≠ 0)
    (htlb : m.tlb = some (e0 :: rest)) (hfull : tlbFull (e0 :: rest) = true)
    (hpt : readPtr m.pageTable (Int.tdiv vaddr cfg.PageSize) = some pe) :
    ∃ log, m.tlbSwap cfg vaddr = .ok log
        { m with tlb := some (rest ++
          [mapping (Int.tdiv vaddr cfg.PageSize) pe.physicalPage 0]) } ∧
      log.swapI = rest.length := by
  have hscan : scanInvalid (e0 :: rest) 0 = -1 :=
    scanInvalid_all_valid _ 0 ((tlbFull_iff _).mp hfull)
  obtain ⟨x, hrep⟩ := tlbReplace_FIFO cfg m.pageTable (Int.tdiv vaddr cfg.PageSize) e0 rest pe
    hpolicy hpt
  have hfill : fillSlot (Int.tdiv vaddr cfg.PageSize) { x with physicalPage := pe.physicalPage }
      = mapping (Int.tdiv vaddr cfg.PageSize) pe.physicalPage 0 := rfl
  refine ⟨{ swapI := rest.length, vpn := Int.tdiv vaddr cfg.PageSize,
             physicalPage := pe.physicalPage, hitRate := 0,
             phyAddr := wrap32 (pe.physicalPage * cfg.PageSize + Int.tmod vaddr cfg.PageSize) },
    ?_, rfl⟩
  simp only [Machine.tlbSwap, htlb, hscan, hps, if_true, if_false, hrep, modifyAt_snoc,
    readAt_snoc, hfill]
  rfl

/-- C7 (amended) scenario: with the FIFO policy and the TLB `[A, B, C]` (pages
0, 1, 2), a refill for page 3, which the page table maps to frame 13, leaves
`[B, C, D]`. -/
theorem tlbSwap_FIFO_evicts_oldest_witness :
    ∃ log, ({ registersOnly [] with
        tlb := some [mapping 0 10 3, mapping 1 11 4, mapping 2 12 5],
        pageTable := some [mapping 0 10 0, mapping 1 11 0, mapping 2 12 0, mapping 3 13 0],
        pageTableSize := 4 } : Machine).tlbSwap stockFIFO 389 = .ok log
        { registersOnly [] with
          tlb := some ([mapping 1 11 4, mapping 2 12 5] ++
            [mapping (Int.tdiv 389 stockFIFO.PageSize) (mapping 3 13 0).physicalPage 0]),
          pageTable := some [mapping 0 10 0, mapping 1 11 0, mapping 2 12 0, mapping 3 13 0],
          pageTableSize := 4 } ∧
      log.swapI = [mapping 1 11 4, mapping 2 12 5].length :=
  tlbSwap_FIFO_evicts_oldest stockFIFO _ (mapping 0 10 3) [mapping 1 11 4, mapping 2 12 5]
    389 (mapping 3 13 0) rfl (by decide) rfl (by decide) (by decide)

end Nachos

namespace Nachos

theorem lruMinInit_eq : lruMinInit = 2147483647 := by decide

theorem lruScan_spec (es : List TranslationEntry) (i : Nat) (s : Int × Int) :
    (lruScan es i s = s ∧ ∀ e ∈ es, e.valid = true → s.1 ≤ e.hitRate) ∨
    (∃ (j : Nat) (e : TranslationEntry), es[j]? = some e ∧ e.valid = true ∧
      lruScan es i s = (e.hitRate, ((i + j : Nat) : Int)) ∧ e.hitRate < s.1 ∧
      (∀ (k : Nat) (x : TranslationEntry), es[k]? = some x → x.valid = true →
        e.hitRate ≤ x.hitRate) ∧
      (∀ (k : Nat) (x : TranslationEntry), k < j → es[k]? = some x → x.valid = true →
        e.hitRate < x.hitRate)) := by
  induction es generalizing i s with
  | nil => exact Or.inl ⟨rfl, fun e he => by cases he⟩
  | cons a rest ih =>
    by_cases ha : a.valid = true ∧ a.hitRate < s.1
    · rw [lruScan, if_pos ha]
      rcases ih (i + 1) (a.hitRate, (i : Int)) with ⟨h1, h2⟩ | ⟨j, e, h1, h2, h3, h4, h5, h6⟩
      · refine Or.inr ⟨0, a, by simp, ha.1, ?_, ha.2, ?_, fun k x hk => by omega⟩
        · rw [h1]; rfl
        · intro k x hx hv
          cases k with
          | zero =>
            simp only [List.getElem?_cons_zero, Option.some.injEq] at hx
            rw [← hx]
          | succ k =>
            have hx2 : rest[k]? = some x := by simpa using hx
            exact h2 x (List.getElem?_mem hx2) hv
      · refine Or.inr ⟨j + 1, e, by simpa using h1, h2, ?_, lt_trans h4 ha.2, ?_, ?_⟩
        · rw [h3]; congr 2; omega
        · intro k x hx hv
          cases k with
          | zero =>
            simp only [List.getElem?_cons_zero, Option.some.injEq] at hx
            rw [← hx]; exact le_of_lt h4
          | succ k => exact h5 k x (by simpa using hx) hv
        · intro k x hk hx hv
          cases k with
          | zero =>
            simp only [List.getElem?_cons_zero, Option.some.injEq] at hx
            rw [← hx]; exact h4
          | succ k => exact h6 k x (by omega) (by simpa using hx) hv
    · rw [lruScan, if_neg ha]
      have ha2 : a.valid = true → s.1 ≤ a.hitRate := by
        intro hv
        by_contra hlt
        exact ha ⟨hv, by omega⟩
      rcases ih (i + 1) s with ⟨h1, h2⟩ | ⟨j, e, h1, h2, h3, h4, h5, h6⟩
      · refine Or.inl ⟨h1, ?_⟩
        intro x hx hv
        rcases List.mem_cons.mp hx with rfl | hx
        · exact ha2 hv
        · exact h2 x hx hv
      · refine Or.inr ⟨j + 1, e, by simpa using h1, h2, ?_, h4, ?_, ?_⟩
        · rw [h3]; congr 2; omega
        · intro k x hx hv
          cases k with
          | zero =>
            simp only [List.getElem?_cons_zero, Option.some.injEq] at hx
            rw [← hx] at hv
            have := ha2 hv
            rw [← hx]; omega
          | succ k => exact h5 k x (by simpa using hx) hv
        · intro k x hk hx hv
          cases k with
          | zero =>
            simp only [List.getElem?_cons_zero, Option.some.injEq] at hx
            rw [← hx] at hv
            have := ha2 hv
            rw [← hx]; omega
          | succ k => exact h6 k x (by omega) (by simpa using hx) hv

theorem modifyAt_getElem? {α : Type} (a : List α) (j : Nat) (x : α) (f : α → α)
    (hj : a[j]? = some x) : modifyAt a (j : Int) f = some (a.set j (f x)) := by
  simp [modifyAt, readAt_natCast, hj]

theorem readAt_set_natCast {α : Type} (a : List α) (j : Nat) (x y : α)
    (hj : a[j]? = some x) : readAt (a.set j y) (j : Int) = some y := by
  have hlt : j < a.length := by
    by_contra h
    rw [List.getElem?_eq_none (by omega)] at hj
    cases hj
  rw [readAt_natCast, List.getElem?_set]
  simp [hlt]

/-- Where the LRU branch does what is claimed of it: on a full TLB in which
slot `j` holds the least hit counter, that counter is below `2^31 - 1` and no
earlier slot has the same counter, `tlbSwap` returns, re-initialises slot `j`
for the new page and leaves every other slot and the rest of the machine
unchanged. -/
theorem tlbSwap_LRU_evicts_first_minimum (cfg : Config) (m : Machine)
    (tlb : List TranslationEntry) (vaddr : Int) (j : Nat) (e : TranslationEntry)
    (hpolicy : cfg.TLB_LRU = true) (hps : cfg.PageSize ≠ 0)
    (htlb : m.tlb = some tlb) (hfull : tlbFull tlb = true)
    (hj : tlb[j]? = some e) (hlt : e.hitRate < 2147483647)
    (hmin : ∀ (k : Nat) (x : TranslationEntry), tlb[k]? = some x → e.hitRate ≤ x.hitRate)
    (hfirst : ∀ (k : Nat) (x : TranslationEntry), k < j → tlb[k]? = some x →
      e.hitRate < x.hitRate) :
    ∃ log, m.tlbSwap cfg vaddr = .ok log
        { m with tlb := some (tlb.set j (fillSlot (Int.tdiv vaddr cfg.PageSize) e)) } ∧
      log.swapI = j := by
  have hall := (tlbFull_iff tlb).mp hfull
  have hscan : scanInvalid tlb 0 = -1 := scanInvalid_all_valid _ 0 hall
  have hvictim : (lruScan tlb 0 (lruMinInit, -1)).2 = (j : Int) := by
    rcases lruScan_spec tlb 0 (lruMinInit, -1) with ⟨_, h2⟩ | ⟨k, x, h1, h2, h3, h4, h5, h6⟩
    · have := h2 e (List.getElem?_mem hj) (hall e (List.getElem?_mem hj))
      rw [lruMinInit_eq] at this
      omega
    · rw [h3]
      have hkj : k = j := by
        rcases Nat.lt_trichotomy k j with hlt2 | heq | hgt
        · have a1 := hfirst k x hlt2 h1
          have a2 := h5 j e hj (hall e (List.getElem?_mem hj))
          omega
        · exact heq
        · have a1 := h6 j e hgt hj (hall e (List.getElem?_mem hj))
          have a2 := hmin k x h1
          omega
      simp [hkj]
  have hrep : tlbReplace cfg m.pageTable (Int.tdiv vaddr cfg.PageSize) tlb =
      some ((j : Int), tlb) := by
    simp only [tlbReplace, hpolicy, if_true, hvictim]
  refine ⟨{ swapI := j, vpn := Int.tdiv vaddr cfg.PageSize,
             physicalPage := e.physicalPage, hitRate := 0,
             phyAddr := wrap32 (e.physicalPage * cfg.PageSize + Int.tmod vaddr cfg.PageSize) },
    ?_, rfl⟩
  simp only [Machine.tlbSwap, htlb, hscan, hps, if_true, if_false, hrep,
    modifyAt_getElem? tlb j e _ hj, readAt_set_natCast tlb j e _ hj]
  rfl

/-- The LRU scenario of the spec: with hit counters `[5, 1, 9, 2]` at indices
0..3 a refill for page 4 re-initialises slot 1 and no other. -/
theorem tlbSwap_LRU_evicts_first_minimum_witness :
    ∃ log, (tlbOnly [mapping 0 10 5, mapping 1 11 1, mapping 2 12 9, mapping 3 13 2]
        eightPages).tlbSwap stockLRU 517 = .ok log
        { tlbOnly [mapping 0 10 5, mapping 1 11 1, mapping 2 12 9, mapping 3 13 2] eightPages
          with tlb := some ([mapping 0 10 5, mapping 1 11 1, mapping 2 12 9, mapping 3 13 2].set 1
            (fillSlot (Int.tdiv 517 stockLRU.PageSize) (mapping 1 11 1))) } ∧
      log.swapI = (1 : Nat) :=
  tlbSwap_LRU_evicts_first_minimum stockLRU _ _ 517 1 (mapping 1 11 1) rfl (by decide) rfl
    (by decide) rfl (by decide)
    (by
      intro k x hx
      rcases k with _ | _ | _ | _ | k <;> simp at hx <;> subst hx <;> decide)
    (by
      intro k x hk hx
      rcases k with _ | k
      · simp at hx; subst hx; decide
      · omega)

/-- C8 (failing input): on a full TLB in which every hit counter is `2^31 - 1`
the LRU scan finds no counter below its initial minimum, the victim index stays
`-1`, and `tlbSwap` writes `tlb[-1]`, outside the array: it replaces no slot. -/
theorem tlbSwap_LRU_saturated_counters :
    tlbFull saturatedTlb = true ∧
    lruScan saturatedTlb 0 (lruMinInit, -1) = (2147483647, -1) ∧
    (tlbOnly saturatedTlb eightPages).tlbSwap stockLRU 517 = .undefinedBehaviour := by
  decide

end Nachos

namespace Nachos

/-! ## Distinct virtual pages in the TLB -/

theorem tlbHolds_false_iff (tlb : List TranslationEntry) (vpn : Int) :
    tlbHolds tlb vpn = false ↔ ∀ e ∈ tlb, e.valid = true → e.virtualPage ≠ vpn := by
  simp [tlbHolds]

theorem slotsDiffer_new_left (vpn : Int) (n x : TranslationEntry)
    (hn : n.virtualPage = vpn) (hx : x.valid = true → x.virtualPage ≠ vpn) :
    slotsDiffer n x := by
  intro _ hv h
  exact hx hv (by rw [← h, hn])

theorem slotsDiffer_new_right (vpn : Int) (n x : TranslationEntry)
    (hn : n.virtualPage = vpn) (hx : x.valid = true → x.virtualPage ≠ vpn) :
    slotsDiffer x n := by
  intro hv _ h
  exact hx hv (by rw [h, hn])

theorem distinctValid_set (tlb : List TranslationEntry) (vpn : Int) (j : Nat)
    (n : TranslationEntry) (hn : n.virtualPage = vpn)
    (hd : distinctValid tlb) (hmiss : ∀ e ∈ tlb, e.valid = true → e.virtualPage ≠ vpn) :
    distinctValid (tlb.set j n) := by
  induction tlb generalizing j with
  | nil => simp [distinctValid]
  | cons a rest ih =>
    unfold distinctValid at hd ih ⊢
    rw [List.pairwise_cons] at hd
    have hrest : ∀ e ∈ rest, e.valid = true → e.virtualPage ≠ vpn :=
      fun e he => hmiss e (List.mem_cons_of_mem _ he)
    cases j with
    | zero =>
      rw [List.set_cons_zero, List.pairwise_cons]
      exact ⟨fun b hb => slotsDiffer_new_left vpn n b hn (hrest b hb), hd.2⟩
    | succ j =>
      rw [List.set_cons_succ, List.pairwise_cons]
      refine ⟨?_, ih j hd.2 hrest⟩
      intro b hb
      rcases List.mem_or_eq_of_mem_set hb with hb | rfl
      · exact hd.1 b hb
      · exact slotsDiffer_new_right vpn b a hn (hmiss a (List.mem_cons_self _ _))

theorem distinctValid_shift (e0 : TranslationEntry) (rest : List TranslationEntry)
    (vpn : Int) (n : TranslationEntry) (hn : n.virtualPage = vpn)
    (hd : distinctValid (e0 :: rest))
    (hmiss : ∀ e ∈ e0 :: rest, e.valid = true → e.virtualPage ≠ vpn) :
    distinctValid (rest ++ [n]) := by
  unfold distinctValid at hd ⊢
  rw [List.pairwise_cons] at hd
  rw [List.pairwise_append]
  refine ⟨hd.2, List.pairwise_singleton _ _, ?_⟩
  intro a ha b hb
  rw [List.mem_singleton] at hb
  subst hb
  exact slotsDiffer_new_right vpn b a hn (hmiss a (List.mem_cons_of_mem _ ha))

theorem distinctValid_of_all_invalid (tlb : List TranslationEntry)
    (h : ∀ e ∈ tlb, e.valid = false) : distinctValid tlb := by
  unfold distinctValid
  rw [List.pairwise_iff_forall_sublist]
  intro a b hab ha
  have : a ∈ tlb := hab.subset (List.mem_cons_self _ _)
  rw [h a this] at ha
  cases ha

/-- The shape of a `tlbSwap` that returns: the machine changes in its TLB only,
and the new array is the old one with one slot re-initialised for the new page,
or (FIFO eviction) the old one without its first entry followed by the new
mapping. -/
theorem tlbSwap_shape (cfg : Config) (m m1 : Machine) (tlb : List TranslationEntry)
    (vaddr : Int) (log : SwapLog) (htlb : m.tlb = some tlb)
    (h : m.tlbSwap cfg vaddr = .ok log m1) :
    ∃ tlb1, m1 = { m with tlb := some tlb1 } ∧
      ((∃ (j : Nat) (e : TranslationEntry), tlb[j]? = some e ∧
          tlb1 = tlb.set j (fillSlot (Int.tdiv vaddr cfg.PageSize) e)) ∨
       (∃ (e0 : TranslationEntry) (rest : List TranslationEntry) (ppn : Int),
          tlb = e0 :: rest ∧
          tlb1 = rest ++ [mapping (Int.tdiv vaddr cfg.PageSize) ppn 0])) := by
  have inPlace : ∀ (i : Int) (t2 : List TranslationEntry),
      modifyAt tlb i (fillSlot (Int.tdiv vaddr cfg.PageSize)) = some t2 →
      ∃ (j : Nat) (e : TranslationEntry), tlb[j]? = some e ∧
        t2 = tlb.set j (fillSlot (Int.tdiv vaddr cfg.PageSize) e) := by
    intro i t2 hm
    obtain ⟨_, _, x, hx, ht2⟩ := modifyAt_some tlb t2 i _ hm
    exact ⟨i.toNat, x, hx, ht2⟩
  unfold Machine.tlbSwap at h
  rw [htlb] at h
  simp only at h
  by_cases hps : cfg.PageSize = 0
  · rw [if_pos hps] at h; cases h
  · rw [if_neg hps] at h
    by_cases hscan : scanInvalid tlb 0 = -1
    · rw [if_pos hscan] at h
      by_cases hpolicy : cfg.TLB_LRU = true
      · simp only [tlbReplace, hpolicy, if_true] at h
        cases hm : modifyAt tlb (lruScan tlb 0 (lruMinInit, -1)).2
            (fillSlot (Int.tdiv vaddr cfg.PageSize)) with
        | none => rw [hm] at h; cases h
        | some t2 =>
          rw [hm] at h
          simp only at h
          split at h
          · cases h
          · injection h with _ h
            exact ⟨t2, h.symm, Or.inl (inPlace _ t2 hm)⟩
      · have hpol : cfg.TLB_LRU = false := by simpa using hpolicy
        cases hpt : readPtr m.pageTable (Int.tdiv vaddr cfg.PageSize) with
        | none =>
          simp only [tlbReplace, hpol, Bool.false_eq_true, if_false, hpt] at h
          cases h
        | some pe =>
          cases tlb with
          | nil =>
            simp only [tlbReplace, hpol, Bool.false_eq_true, if_false, hpt, fifoShift, modifyAt,
              readAt] at h
            simp at h
          | cons e0 rest =>
            obtain ⟨x, hrep⟩ := tlbReplace_FIFO cfg m.pageTable
              (Int.tdiv vaddr cfg.PageSize) e0 rest pe hpol hpt
            rw [hrep] at h
            simp only [modifyAt_snoc, readAt_snoc] at h
            injection h with _ h
            exact ⟨_, h.symm, Or.inr ⟨e0, rest, pe.physicalPage, rfl, rfl⟩⟩
    · rw [if_neg hscan] at h
      simp only at h
      cases hm : modifyAt tlb (scanInvalid tlb 0)
          (fillSlot (Int.tdiv vaddr cfg.PageSize)) with
      | none => rw [hm] at h; cases h
      | some t2 =>
        rw [hm] at h
        simp only at h
        split at h
        · cases h
        · injection h with _ h
          exact ⟨t2, h.symm, Or.inl (inPlace _ t2 hm)⟩

/-- A refill made on a miss keeps the valid entries' virtual pages pairwise
distinct and keeps the size of the array. -/
theorem tlbSwap_miss_keeps_distinct (cfg : Config) (m m1 : Machine)
    (tlb : List TranslationEntry) (vaddr : Int) (log : SwapLog) (htlb : m.tlb = some tlb)
    (hd : distinctValid tlb)
    (hmiss : tlbHolds tlb (Int.tdiv vaddr cfg.PageSize) = false)
    (h : m.tlbSwap cfg vaddr = .ok log m1) :
    ∃ tlb1, m1.tlb = some tlb1 ∧ distinctValid tlb1 ∧ tlb1.length = tlb.length := by
  obtain ⟨tlb1, hm1, hshape⟩ := tlbSwap_shape cfg m m1 tlb vaddr log htlb h
  have hm := (tlbHolds_false_iff tlb _).mp hmiss
  refine ⟨tlb1, by rw [hm1], ?_, ?_⟩
  · rcases hshape with ⟨j, e, _, rfl⟩ | ⟨e0, rest, ppn, rfl, rfl⟩
    · exact distinctValid_set tlb _ j _ rfl hd hm
    · exact distinctValid_shift e0 rest _ _ rfl hd hm
  · rcases hshape with ⟨j, e, _, rfl⟩ | ⟨e0, rest, ppn, rfl, rfl⟩
    · simp
    · simp

end Nachos

namespace Nachos

theorem freshTlb_all_invalid (cfg : Config) (host : Host) :
    ∀ e ∈ freshTlb cfg host, e.valid = false := by
  intro e he
  simp only [freshTlb, List.mem_map] at he
  obtain ⟨_, _, rfl⟩ := he
  rfl

/-- C2 (as stated, refuted): refills with arbitrary virtual addresses do not keep
the valid entries distinct. On the freshly constructed machine, under the FIFO
and under the LRU policy, `tlbSwap(0)` followed by `tlbSwap(0)` returns with
slots 0 and 1 both valid for virtual page 0. -/
theorem tlbSwaps_duplicate_counterexample :
    (∃ m0 m2 t, Machine.new stockFIFO zeroHost false = .ok () m0 ∧
      m0.tlbSwaps stockFIFO [0, 0] = .ok () m2 ∧ m2.tlb = some t ∧
      t[0]? = some (mapping 0 0 0) ∧ t[1]? = some (mapping 0 0 0) ∧ ¬ distinctValid t) ∧
    (∃ m0 m2 t, Machine.new stockLRU zeroHost false = .ok () m0 ∧
      m0.tlbSwaps stockLRU [0, 0] = .ok () m2 ∧ m2.tlb = some t ∧
      t[0]? = some (mapping 0 0 0) ∧ t[1]? = some (mapping 0 0 0) ∧ ¬ distinctValid t) := by
  refine ⟨⟨_, _, _, rfl, rfl, rfl, by decide, by decide, by decide⟩,
    ⟨_, _, _, rfl, rfl, rfl, by decide, by decide, by decide⟩⟩

/-- C2 (amended): from a machine whose TLB slots are all invalid, as in the
freshly constructed machine, every state reached by a sequence of refills
`tlbSwap(vaddr)` each made on a miss (no valid entry maps the page of `vaddr`
when it is called) has pairwise distinct virtual page numbers among its valid
TLB entries, under either replacement policy; the array keeps its size. -/
theorem tlbSwaps_on_misses_keep_distinct (cfg : Config) (vs : List Int) (m m2 : Machine)
    (tlb : List TranslationEntry) (htlb : m.tlb = some tlb)
    (hfresh : ∀ e ∈ tlb, e.valid = false)
    (hrun : m.tlbSwaps cfg vs = .ok () m2) (hmiss : m.missesOnly cfg vs = true) :
    ∃ tlb2, m2.tlb = some tlb2 ∧ distinctValid tlb2 ∧ tlb2.length = tlb.length := by
  have hd := distinctValid_of_all_invalid tlb hfresh
  clear hfresh
  induction vs generalizing m tlb with
  | nil =>
    simp only [Machine.tlbSwaps] at hrun
    injection hrun with _ hrun
    subst hrun
    exact ⟨tlb, htlb, hd, rfl⟩
  | cons v vs ih =>
    unfold Machine.tlbSwaps at hrun
    unfold Machine.missesOnly at hmiss
    rw [htlb] at hmiss
    cases hstep : m.tlbSwap cfg v with
    | undefinedBehaviour => rw [hstep] at hrun; cases hrun
    | assertFailed s => rw [hstep] at hrun; cases hrun
    | ok log m1 =>
      rw [hstep] at hrun hmiss
      simp only [Bool.and_eq_true, Bool.not_eq_eq_eq_not, Bool.not_true] at hmiss
      obtain ⟨tlb1, h1, hd1, hlen1⟩ :=
        tlbSwap_miss_keeps_distinct cfg m m1 tlb v log htlb hd hmiss.1 hstep
      obtain ⟨tlb2, h2, hd2, hlen2⟩ := ih m1 tlb1 h1 hrun hmiss.2 hd1
      exact ⟨tlb2, h2, hd2, by rw [hlen2, hlen1]⟩

/-- C2 (amended) on concrete runs: from the fresh four-slot TLB with an
eight-page table, refills for pages 0, 1, 2, 3, 4 and then 0 again are all
misses, under FIFO and under LRU, and the final TLB has distinct pages. -/
theorem tlbSwaps_on_misses_keep_distinct_witness :
    (∀ e ∈ freshTlb stockFIFO zeroHost, e.valid = false) ∧
    ((tlbOnly (freshTlb stockFIFO zeroHost) eightPages).tlbSwaps stockFIFO
        [0, 128, 256, 384, 512, 0] =
        .ok () (tlbOnly [mapping 2 0 0, mapping 3 0 0, mapping 4 14 0, mapping 0 10 0]
          eightPages) ∧
      (tlbOnly (freshTlb stockFIFO zeroHost) eightPages).missesOnly stockFIFO
        [0, 128, 256, 384, 512, 0] = true ∧
      ∃ tlb2, (tlbOnly [mapping 2 0 0, mapping 3 0 0, mapping 4 14 0, mapping 0 10 0]
          eightPages).tlb = some tlb2 ∧ distinctValid tlb2 ∧
        tlb2.length = (freshTlb stockFIFO zeroHost).length) ∧
    ((tlbOnly (freshTlb stockLRU zeroHost) eightPages).tlbSwaps stockLRU
        [0, 128, 256, 384, 512, 0] =
        .ok () (tlbOnly [mapping 0 0 0, mapping 1 0 0, mapping 2 0 0, mapping 3 0 0]
          eightPages) ∧
      (tlbOnly (freshTlb stockLRU zeroHost) eightPages).missesOnly stockLRU
        [0, 128, 256, 384, 512, 0] = true ∧
      ∃ tlb2, (tlbOnly [mapping 0 0 0, mapping 1 0 0, mapping 2 0 0, mapping 3 0 0]
          eightPages).tlb = some tlb2 ∧ distinctValid tlb2 ∧
        tlb2.length = (freshTlb stockLRU zeroHost).length) :=
  ⟨freshTlb_all_invalid stockFIFO zeroHost,
    ⟨by decide, by decide,
      tlbSwaps_on_misses_keep_distinct stockFIFO [0, 128, 256, 384, 512, 0]
        (tlbOnly (freshTlb stockFIFO zeroHost) eightPages)
        (tlbOnly [mapping 2 0 0, mapping 3 0 0, mapping 4 14 0, mapping 0 10 0] eightPages)
        (freshTlb stockFIFO zeroHost) rfl
        (freshTlb_all_invalid stockFIFO zeroHost) (by decide) (by decide)⟩,
    ⟨by decide, by decide,
      tlbSwaps_on_misses_keep_distinct stockLRU [0, 128, 256, 384, 512, 0]
        (tlbOnly (freshTlb stockLRU zeroHost) eightPages)
        (tlbOnly [mapping 0 0 0, mapping 1 0 0, mapping 2 0 0, mapping 3 0 0] eightPages)
        (freshTlb stockLRU zeroHost) rfl
        (freshTlb_all_invalid stockLRU zeroHost) (by decide) (by decide)⟩⟩

end Nachos

namespace Nachos

/-! ## Register file: failure and frame -/

theorem ReadRegister_in_range (cfg : Config) (m : Machine) (num : Int)
    (hlen : m.registers.length = cfg.NumTotalRegs) (h0 : 0 ≤ num)
    (h1 : num < cfg.NumTotalRegs) :
    ∃ v, readAt m.registers num = some v ∧ m.ReadRegister cfg num = .ok v m := by
  obtain ⟨v, hv, _⟩ := modifyAt_of_lt m.registers num id h0 (by omega)
  exact ⟨v, hv, by simp only [Machine.ReadRegister, h0, h1, and_self, if_true, hv]⟩

theorem WriteRegister_in_range (cfg : Config) (m : Machine) (num value : Int)
    (hlen : m.registers.length = cfg.NumTotalRegs) (h0 : 0 ≤ num)
    (h1 : num < cfg.NumTotalRegs) :
    m.WriteRegister cfg num value =
      .ok () { m with registers := m.registers.set num.toNat value } := by
  obtain ⟨_, _, hm⟩ := modifyAt_of_lt m.registers num (fun _ => value) h0 (by omega)
  simp only [Machine.WriteRegister, h0, h1, and_self, if_true, hm]

theorem ReadRegister_out_of_range (cfg : Config) (m : Machine) (num : Int)
    (h : num < 0 ∨ (cfg.NumTotalRegs : Int) ≤ num) :
    m.ReadRegister cfg num = .assertFailed m := by
  have : ¬ (0 ≤ num ∧ num < cfg.NumTotalRegs) := by omega
  simp only [Machine.ReadRegister, this, if_false]

theorem WriteRegister_out_of_range (cfg : Config) (m : Machine) (num value : Int)
    (h : num < 0 ∨ (cfg.NumTotalRegs : Int) ≤ num) :
    m.WriteRegister cfg num value = .assertFailed m := by
  have : ¬ (0 ≤ num ∧ num < cfg.NumTotalRegs) := by omega
  simp only [Machine.WriteRegister, this, if_false]

theorem ReadRegister_assert_inv (cfg : Config) (m s : Machine) (num : Int)
    (h : m.ReadRegister cfg num = .assertFailed s) :
    (num < 0 ∨ (cfg.NumTotalRegs : Int) ≤ num) ∧ s = m := by
  unfold Machine.ReadRegister at h
  split at h
  · split at h <;> cases h
  · rename_i hr
    injection h with h
    exact ⟨by omega, h.symm⟩

theorem WriteRegister_assert_inv (cfg : Config) (m s : Machine) (num value : Int)
    (h : m.WriteRegister cfg num value = .assertFailed s) :
    (num < 0 ∨ (cfg.NumTotalRegs : Int) ≤ num) ∧ s = m := by
  unfold Machine.WriteRegister at h
  split at h
  · split at h <;> cases h
  · rename_i hr
    injection h with h
    exact ⟨by omega, h.symm⟩

/-- C11: `ReadRegister(num)` and `WriteRegister(num, value)` fail their
assertion exactly when `num < 0` or `num >= NumTotalRegs`; the state at the
abort is the state before the call, so the register file is unchanged; and
for an in-range index on a register file of `NumTotalRegs` entries both
operations return. -/
theorem Register_access_fails_iff_out_of_range (cfg : Config) (m : Machine)
    (num value : Int) :
    ((∃ s, m.ReadRegister cfg num = .assertFailed s) ↔
      (num < 0 ∨ (cfg.NumTotalRegs : Int) ≤ num)) ∧
    ((∃ s, m.WriteRegister cfg num value = .assertFailed s) ↔
      (num < 0 ∨ (cfg.NumTotalRegs : Int) ≤ num)) ∧
    (∀ s, m.ReadRegister cfg num = .assertFailed s → s = m ∧ s.registers = m.registers) ∧
    (∀ s, m.WriteRegister cfg num value = .assertFailed s →
      s = m ∧ s.registers = m.registers) ∧
    (m.registers.length = cfg.NumTotalRegs → 0 ≤ num → num < cfg.NumTotalRegs →
      (∃ v, m.ReadRegister cfg num = .ok v m) ∧
      (∃ m1, m.WriteRegister cfg num value = .ok () m1)) := by
  refine ⟨⟨?_, ?_⟩, ⟨?_, ?_⟩, ?_, ?_, ?_⟩
  · rintro ⟨s, hs⟩
    exact (ReadRegister_assert_inv cfg m s num hs).1
  · exact fun h => ⟨m, ReadRegister_out_of_range cfg m num h⟩
  · rintro ⟨s, hs⟩
    exact (WriteRegister_assert_inv cfg m s num value hs).1
  · exact fun h => ⟨m, WriteRegister_out_of_range cfg m num value h⟩
  · intro s hs
    have := (ReadRegister_assert_inv cfg m s num hs).2
    exact ⟨this, by rw [this]⟩
  · intro s hs
    have := (WriteRegister_assert_inv cfg m s num value hs).2
    exact ⟨this, by rw [this]⟩
  · intro hlen h0 h1
    obtain ⟨v, _, hv⟩ := ReadRegister_in_range cfg m num hlen h0 h1
    exact ⟨⟨v, hv⟩, ⟨_, WriteRegister_in_range cfg m num value hlen h0 h1⟩⟩

/-- C11 at concrete indices of the stock 40-register file: index 39 is
accepted by both operations, indices 40 and -1 abort both and leave the
machine as it was. -/
theorem Register_access_fails_iff_out_of_range_witness :
    ((∃ v, (registersOnly (List.replicate 40 7)).ReadRegister stockFIFO 39 =
        .ok v (registersOnly (List.replicate 40 7))) ∧
      (∃ m1, (registersOnly (List.replicate 40 7)).WriteRegister stockFIFO 39 5 = .ok () m1)) ∧
    (registersOnly (List.replicate 40 7)).ReadRegister stockFIFO 40 =
      .assertFailed (registersOnly (List.replicate 40 7)) ∧
    (registersOnly (List.replicate 40 7)).WriteRegister stockFIFO 40 5 =
      .assertFailed (registersOnly (List.replicate 40 7)) ∧
    (registersOnly (List.replicate 40 7)).ReadRegister stockFIFO (-1) =
      .assertFailed (registersOnly (List.replicate 40 7)) ∧
    (registersOnly (List.replicate 40 7)).WriteRegister stockFIFO (-1) 5 =
      .assertFailed (registersOnly (List.replicate 40 7)) :=
  ⟨(Register_access_fails_iff_out_of_range stockFIFO (registersOnly (List.replicate 40 7))
      39 5).2.2.2.2 rfl (by decide) (by decide),
    by decide, by decide, by decide, by decide⟩

/-- C13: `WriteRegister(i, v)` with `0 ≤ i < NumTotalRegs` returns and changes
register `i` only: every other register reads as before, the register file
keeps its size, and the TLB, the frame bitmap, main memory (and the page
table) are unchanged. `ReadRegister` changes no state: whenever it returns or
aborts, the state is the state before the call. -/
theorem WriteRegister_changes_only_that_register (cfg : Config) (m : Machine) (i v : Int)
    (hlen : m.registers.length = cfg.NumTotalRegs) (h0 : 0 ≤ i)
    (h1 : i < cfg.NumTotalRegs) :
    (∃ m1, m.WriteRegister cfg i v = .ok () m1 ∧
      (∀ j : Int, j ≠ i → readAt m1.registers j = readAt m.registers j) ∧
      (∀ j : Int, j ≠ i → 0 ≤ j → j < cfg.NumTotalRegs →
        ∃ x, m.ReadRegister cfg j = .ok x m ∧ m1.ReadRegister cfg j = .ok x m1) ∧
      m1.registers.length = m.registers.length ∧
      m1.tlb = m.tlb ∧ m1.bitMap = m.bitMap ∧ m1.mainMemory = m.mainMemory ∧
      m1.pageTable = m.pageTable ∧ m1.pageTableSize = m.pageTableSize ∧
      m1.singleStep = m.singleStep) ∧
    (∀ (num x : Int) (s : Machine), m.ReadRegister cfg num = .ok x s → s = m) ∧
    (∀ (num : Int) (s : Machine), m.ReadRegister cfg num = .assertFailed s → s = m) := by
  refine ⟨⟨_, WriteRegister_in_range cfg m i v hlen h0 h1, ?_, ?_, by simp, rfl, rfl, rfl,
    rfl, rfl, rfl⟩, ?_, ?_⟩
  · intro j hj
    exact readAt_set_other m.registers i j v h0 (fun h => hj h.symm)
  · intro j hj hj0 hj1
    obtain ⟨x, hx, hr⟩ := ReadRegister_in_range cfg m j hlen hj0 hj1
    refine ⟨x, hr, ?_⟩
    have hx1 : readAt (m.registers.set i.toNat v) j = some x := by
      rw [readAt_set_other m.registers i j v h0 (fun h => hj h.symm)]
      exact hx
    simp only [Machine.ReadRegister, hj0, hj1, and_self, if_true, hx1]
  · intro num x s h
    unfold Machine.ReadRegister at h
    split at h
    · split at h
      · injection h with _ h
        exact h.symm
      · cases h
    · cases h
  · intro num s h
    exact (ReadRegister_assert_inv cfg m s num h).2

/-- C13 at a concrete state: on a machine with 40 registers, a TLB, a page
table and a bitmap, writing 5 to register 2 leaves register 3 and every other
component as they were. -/
theorem WriteRegister_changes_only_that_register_witness :
    ∃ m1, ({ clearAllDemo with registers := List.replicate 40 7 } : Machine).WriteRegister
        stockFIFO 2 5 = .ok () m1 ∧
      readAt m1.registers 2 = some 5 ∧ readAt m1.registers 3 = some 7 ∧
      m1.tlb = clearAllDemo.tlb ∧ m1.bitMap = clearAllDemo.bitMap ∧
      m1.mainMemory = clearAllDemo.mainMemory :=
  match (WriteRegister_changes_only_that_register stockFIFO
      { clearAllDemo with registers := List.replicate 40 7 } 2 5 rfl (by decide)
      (by decide)).1 with
  | ⟨m1, hw, hother, _, _, htlb, hbm, hmem, _, _, _⟩ =>
    ⟨m1, hw,
      by
        have hw2 : ({ clearAllDemo with registers := List.replicate 40 7 } : Machine).WriteRegister
            stockFIFO 2 5 = .ok () { clearAllDemo with
              registers := (List.replicate 40 7).set 2 5 } := by decide
        rw [hw2] at hw
        injection hw with _ hw
        rw [← hw]
        decide,
      by rw [hother 3 (by decide)]; decide,
      htlb, hbm, hmem⟩

end Nachos

namespace Nachos

/-! ## Construction -/

theorem new_eq (cfg : Config) (host : Host) (debug : Bool) (m : Machine)
    (hnew : Machine.new cfg host debug = .ok () m) :
    m = { registers := List.replicate cfg.NumTotalRegs 0
          mainMemory := List.replicate cfg.MemorySize 0
          tlb := if cfg.USE_TLB then some (freshTlb cfg host) else none
          pageTable := none
          pageTableSize := host.pageTableSize
          bitMap := BitMap.new cfg.NumPhysPages
          singleStep := debug } := by
  unfold Machine.new at hnew
  simp only at hnew
  split at hnew
  · injection hnew with _ hm
    exact hm.symm
  · cases hnew

theorem readAt_replicate {α : Type} (n : Nat) (x : α) (i : Int) (h0 : 0 ≤ i) (h1 : i < n) :
    readAt (List.replicate n x) i = some x := by
  have hlt : i.toNat < n := by omega
  rw [readAt_eq_getElem? _ i h0, List.getElem?_replicate]
  simp [hlt]

theorem test_new (n : Nat) (f : Int) : (BitMap.new n).Test f = false := by
  unfold BitMap.Test BitMap.new
  split
  · rw [List.getD_eq_getElem?_getD, List.getElem?_replicate]
    split <;> rfl
  · rfl

theorem freshTlb_hitRate (cfg : Config) (host : Host) :
    ∀ e ∈ freshTlb cfg host, e.hitRate = 0 := by
  intro e he
  simp only [freshTlb, List.mem_map] at he
  obtain ⟨_, _, rfl⟩ := he
  rfl

/-- C14: right after construction every register `0 .. NumTotalRegs-1` reads
0, the bitmap has `NumPhysPages` bits and none is set, main memory has
`MemorySize` bytes and each is 0, and in a `USE_TLB` build the TLB has
`TLBSize` slots, each invalid with hit counter 0 (without `USE_TLB` there is
no TLB); the page table pointer is null. -/
theorem new_machine_is_zeroed (cfg : Config) (host : Host) (debug : Bool) (m : Machine)
    (hnew : Machine.new cfg host debug = .ok () m) :
    (m.registers.length = cfg.NumTotalRegs ∧
      ∀ i : Int, 0 ≤ i → i < cfg.NumTotalRegs → m.ReadRegister cfg i = .ok 0 m) ∧
    (m.bitMap.bits.length = cfg.NumPhysPages ∧ ∀ f : Int, m.bitMap.Test f = false) ∧
    (m.mainMemory.length = cfg.MemorySize ∧
      ∀ a : Int, 0 ≤ a → a < cfg.MemorySize → readAt m.mainMemory a = some 0) ∧
    (cfg.USE_TLB = true → ∃ tlb, m.tlb = some tlb ∧ tlb.length = cfg.TLBSize ∧
      ∀ e ∈ tlb, e.valid = false ∧ e.hitRate = 0) ∧
    (cfg.USE_TLB = false → m.tlb = none) ∧
    m.pageTable = none ∧ m.singleStep = debug := by
  have hm := new_eq cfg host debug m hnew
  subst hm
  refine ⟨⟨by simp, ?_⟩, ⟨by simp [BitMap.new], fun f => test_new _ f⟩, ⟨by simp, ?_⟩, ?_, ?_,
    rfl, rfl⟩
  · intro i h0 h1
    have hr := readAt_replicate cfg.NumTotalRegs (0 : Int) i h0 h1
    simp only [Machine.ReadRegister, h0, h1, and_self, if_true, hr]
  · intro a h0 h1
    exact readAt_replicate cfg.MemorySize (0 : Int) a h0 h1
  · intro hT
    refine ⟨freshTlb cfg host, by simp [hT], by simp [freshTlb], ?_⟩
    exact fun e he => ⟨freshTlb_all_invalid cfg host e he, freshTlb_hitRate cfg host e he⟩
  · intro hT
    simp [hT]

/-- C14 at a concrete build: the machine built with the four-frame `USE_TLB`
build on a host that leaves zeroed memory. -/
theorem new_machine_is_zeroed_witness :
    Machine.new smallFIFO zeroHost true =
      .ok () { bitmapOnly [false, false, false, false] with
               registers := List.replicate 40 0, mainMemory := List.replicate 512 0,
               tlb := some (freshTlb smallFIFO zeroHost), singleStep := true } ∧
    freshTlb smallFIFO zeroHost =
      [{ mapping 0 0 0 with valid := false }, { mapping 0 0 0 with valid := false },
       { mapping 0 0 0 with valid := false }, { mapping 0 0 0 with valid := false }] ∧
    (∀ i : Int, 0 ≤ i → i < smallFIFO.NumTotalRegs →
      ({ bitmapOnly [false, false, false, false] with
         registers := List.replicate 40 0, mainMemory := List.replicate 512 0,
         tlb := some (freshTlb smallFIFO zeroHost), singleStep := true } : Machine).ReadRegister
        smallFIFO i =
      .ok 0 { bitmapOnly [false, false, false, false] with
              registers := List.replicate 40 0, mainMemory := List.replicate 512 0,
              tlb := some (freshTlb smallFIFO zeroHost), singleStep := true }) :=
  ⟨rfl, by decide,
    (new_machine_is_zeroed smallFIFO zeroHost true
      { bitmapOnly [false, false, false, false] with
        registers := List.replicate 40 0, mainMemory := List.replicate 512 0,
        tlb := some (freshTlb smallFIFO zeroHost), singleStep := true } rfl).1.2⟩

end Nachos

namespace Nachos

/-! ## TLB refill: the three paths in full -/

theorem wrap32_of_range (x : Int) (h0 : -2147483648 ≤ x) (h1 : x < 2147483648) :
    wrap32 x = x := by
  unfold wrap32
  omega

theorem scanInvalid_eq_first (tlb : List TranslationEntry) (j : Nat) (e : TranslationEntry)
    (hj : tlb[j]? = some e) (hinv : e.valid = false)
    (hfirst : ∀ (k : Nat) (x : TranslationEntry), k < j → tlb[k]? = some x → x.valid = true) :
    scanInvalid tlb 0 = (j : Int) := by
  rcases scanInvalid_spec tlb 0 with ⟨_, hall⟩ | ⟨k, x, h1, h2, h3, h4⟩
  · have := hall e (List.getElem?_mem hj)
    rw [hinv] at this
    cases this
  · have hkj : k = j := by
      rcases Nat.lt_trichotomy k j with hlt | heq | hgt
      · have := hfirst k x hlt h2
        rw [h3] at this
        cases this
      · exact heq
      · have := h4 j e hgt hj
        rw [hinv] at this
        cases this
    rw [h1, hkj]
    simp

/-- The refill into an invalid slot, in full: when slot `j` is the first invalid
slot, `tlbSwap` returns, slot `j` is re-initialised for the new page and keeps
its frame number, and nothing else changes. -/
theorem tlbSwap_invalid_slot_eq (cfg : Config) (m : Machine) (tlb : List TranslationEntry)
    (vaddr : Int) (j : Nat) (e : TranslationEntry) (hps : cfg.PageSize ≠ 0)
    (htlb : m.tlb = some tlb) (hj : tlb[j]? = some e) (hinv : e.valid = false)
    (hfirst : ∀ (k : Nat) (x : TranslationEntry), k < j → tlb[k]? = some x → x.valid = true) :
    m.tlbSwap cfg vaddr = .ok
      { swapI := j, vpn := Int.tdiv vaddr cfg.PageSize, physicalPage := e.physicalPage,
        hitRate := 0,
        phyAddr := wrap32 (e.physicalPage * cfg.PageSize + Int.tmod vaddr cfg.PageSize) }
      { m with tlb := some (tlb.set j (fillSlot (Int.tdiv vaddr cfg.PageSize) e)) } := by
  have hscan := scanInvalid_eq_first tlb j e hj hinv hfirst
  have hne : ((j : Int) = -1) = False := by
    apply propext
    constructor
    · intro h; omega
    · exact False.elim
  simp only [Machine.tlbSwap, htlb, hscan, hps, if_false, hne,
    modifyAt_getElem? tlb j e _ hj, readAt_set_natCast tlb j e _ hj]
  rfl

/-- The FIFO eviction, in full: on a full TLB `e0 :: rest`, for a page with a
page-table entry `pe`, `tlbSwap` returns, the array becomes `rest` followed by
the new mapping, whose frame is the one of `pe`. -/
theorem tlbSwap_FIFO_full_eq (cfg : Config) (m : Machine) (e0 : TranslationEntry)
    (rest : List TranslationEntry) (vaddr : Int) (pe : TranslationEntry)
    (hpolicy : cfg.TLB_LRU = false) (hps : cfg.PageSize ≠ 0)
    (htlb : m.tlb = some (e0 :: rest)) (hfull : tlbFull (e0 :: rest) = true)
    (hpt : readPtr m.pageTable (Int.tdiv vaddr cfg.PageSize) = some pe) :
    m.tlbSwap cfg vaddr = .ok
      { swapI := rest.length, vpn := Int.tdiv vaddr cfg.PageSize,
        physicalPage := pe.physicalPage, hitRate := 0,
        phyAddr := wrap32 (pe.physicalPage * cfg.PageSize + Int.tmod vaddr cfg.PageSize) }
      { m with tlb := some (rest ++
          [mapping (Int.tdiv vaddr cfg.PageSize) pe.physicalPage 0]) } := by
  have hscan : scanInvalid (e0 :: rest) 0 = -1 :=
    scanInvalid_all_valid _ 0 ((tlbFull_iff _).mp hfull)
  obtain ⟨x, hrep⟩ := tlbReplace_FIFO cfg m.pageTable (Int.tdiv vaddr cfg.PageSize) e0 rest pe
    hpolicy hpt
  have hfill : fillSlot (Int.tdiv vaddr cfg.PageSize) { x with physicalPage := pe.physicalPage }
      = mapping (Int.tdiv vaddr cfg.PageSize) pe.physicalPage 0 := rfl
  simp only [Machine.tlbSwap, htlb, hscan, hps, if_true, if_false, hrep, modifyAt_snoc,
    readAt_snoc, hfill]
  rfl

/-- C15: when the TLB has an invalid slot, `tlbSwap` returns and re-initialises
the lowest-indexed invalid slot `j` for the new page, with hit counter 0; every
other slot is unchanged, nothing is shifted or evicted, and the rest of the
machine is unchanged. This holds for either policy. -/
theorem tlbSwap_reuses_first_invalid_slot (cfg : Config) (m : Machine)
    (tlb : List TranslationEntry) (vaddr : Int) (j : Nat) (e : TranslationEntry)
    (hps : cfg.PageSize ≠ 0) (htlb : m.tlb = some tlb)
    (hj : tlb[j]? = some e) (hinv : e.valid = false)
    (hfirst : ∀ (k : Nat) (x : TranslationEntry), k < j → tlb[k]? = some x → x.valid = true) :
    ∃ log tlb1, m.tlbSwap cfg vaddr = .ok log { m with tlb := some tlb1 } ∧
      log.swapI = j ∧ log.hitRate = 0 ∧
      tlb1 = tlb.set j (fillSlot (Int.tdiv vaddr cfg.PageSize) e) ∧
      tlb1[j]? = some (fillSlot (Int.tdiv vaddr cfg.PageSize) e) ∧
      (∀ k : Nat, k ≠ j → tlb1[k]? = tlb[k]?) ∧
      tlb1.length = tlb.length := by
  have hlt : j < tlb.length := by
    by_contra hge
    rw [List.getElem?_eq_none (by omega)] at hj
    cases hj
  refine ⟨_, _, tlbSwap_invalid_slot_eq cfg m tlb vaddr j e hps htlb hj hinv hfirst, rfl, rfl,
    rfl, ?_, ?_, by simp⟩
  · rw [List.getElem?_set]; simp [hlt]
  · intro k hk
    rw [List.getElem?_set, if_neg (fun h => hk h.symm)]

/-- C15 scenario: capacity 4, all slots invalid; under FIFO and under LRU a
refill for page 2 fills slot 0 with hit counter 0 and leaves slots 1..3
invalid. -/
theorem tlbSwap_reuses_first_invalid_slot_witness :
    (∃ log tlb1, (tlbOnly (freshTlb stockFIFO zeroHost) eightPages).tlbSwap stockFIFO 260 =
        .ok log { tlbOnly (freshTlb stockFIFO zeroHost) eightPages with tlb := some tlb1 } ∧
      log.swapI = (0 : Nat) ∧ log.hitRate = 0 ∧
      tlb1 = (freshTlb stockFIFO zeroHost).set 0
        (fillSlot (Int.tdiv 260 stockFIFO.PageSize) { mapping 0 0 0 with valid := false }) ∧
      tlb1[0]? = some (fillSlot (Int.tdiv 260 stockFIFO.PageSize)
        { mapping 0 0 0 with valid := false }) ∧
      (∀ k : Nat, k ≠ 0 → tlb1[k]? = (freshTlb stockFIFO zeroHost)[k]?) ∧
      tlb1.length = (freshTlb stockFIFO zeroHost).length) ∧
    (tlbOnly (freshTlb stockFIFO zeroHost) eightPages).tlbSwap stockFIFO 260 =
      .ok { swapI := 0, vpn := 2, physicalPage := 0, hitRate := 0, phyAddr := 4 }
        (tlbOnly [mapping 2 0 0, { mapping 0 0 0 with valid := false },
          { mapping 0 0 0 with valid := false }, { mapping 0 0 0 with valid := false }]
          eightPages) ∧
    (tlbOnly (freshTlb stockLRU zeroHost) eightPages).tlbSwap stockLRU 260 =
      .ok { swapI := 0, vpn := 2, physicalPage := 0, hitRate := 0, phyAddr := 4 }
        (tlbOnly [mapping 2 0 0, { mapping 0 0 0 with valid := false },
          { mapping 0 0 0 with valid := false }, { mapping 0 0 0 with valid := false }]
          eightPages) :=
  ⟨tlbSwap_reuses_first_invalid_slot stockFIFO _ (freshTlb stockFIFO zeroHost) 260 0
      { mapping 0 0 0 with valid := false } (by decide) rfl (by decide) rfl
      (fun k _ hk => absurd hk (Nat.not_lt_zero k)),
    by decide, by decide⟩

end Nachos

namespace Nachos

/-- Every `tlbSwap` that returns took one of two routes. In place: some slot
`j` (the first invalid slot, or the LRU victim of a full TLB) was
re-initialised and kept its frame number. FIFO eviction of a full TLB: the
first entry was dropped and a new mapping with the page table's frame was
appended. In both the log holds the page, hit counter 0 and the physical
address computed from the slot, and only the TLB changed. -/
theorem tlbSwap_cases (cfg : Config) (m m1 : Machine) (tlb : List TranslationEntry)
    (vaddr : Int) (log : SwapLog) (htlb : m.tlb = some tlb)
    (h : m.tlbSwap cfg vaddr = .ok log m1) :
    cfg.PageSize ≠ 0 ∧ log.vpn = Int.tdiv vaddr cfg.PageSize ∧ log.hitRate = 0 ∧
    log.phyAddr = wrap32 (log.physicalPage * cfg.PageSize + Int.tmod vaddr cfg.PageSize) ∧
    ((∃ (j : Nat) (e : TranslationEntry), tlb[j]? = some e ∧ log.swapI = (j : Int) ∧
        log.physicalPage = e.physicalPage ∧
        m1 = { m with tlb := some (tlb.set j (fillSlot (Int.tdiv vaddr cfg.PageSize) e)) } ∧
        (scanInvalid tlb 0 = (j : Int) ∨
          (scanInvalid tlb 0 = -1 ∧ cfg.TLB_LRU = true ∧
            (lruScan tlb 0 (lruMinInit, -1)).2 = (j : Int)))) ∨
     (∃ (e0 : TranslationEntry) (rest : List TranslationEntry) (pe : TranslationEntry),
        tlb = e0 :: rest ∧ scanInvalid tlb 0 = -1 ∧ cfg.TLB_LRU = false ∧
        readPtr m.pageTable (Int.tdiv vaddr cfg.PageSize) = some pe ∧
        log.swapI = (rest.length : Int) ∧ log.physicalPage = pe.physicalPage ∧
        m1 = { m with tlb := some (rest ++
          [mapping (Int.tdiv vaddr cfg.PageSize) pe.physicalPage 0]) })) := by
  have inPlace : ∀ (i : Int),
      (match modifyAt tlb i (fillSlot (Int.tdiv vaddr cfg.PageSize)) with
        | none => (Res.undefinedBehaviour : Res Machine SwapLog)
        | some tlb2 =>
          match readAt tlb2 i with
          | none => Res.undefinedBehaviour
          | some e =>
            Res.ok { swapI := i, vpn := Int.tdiv vaddr cfg.PageSize,
                     physicalPage := e.physicalPage, hitRate := e.hitRate,
                     phyAddr := wrap32 (e.physicalPage * cfg.PageSize +
                       Int.tmod vaddr cfg.PageSize) }
                   { m with tlb := some tlb2 }) = .ok log m1 →
      log.vpn = Int.tdiv vaddr cfg.PageSize ∧ log.hitRate = 0 ∧
      log.phyAddr = wrap32 (log.physicalPage * cfg.PageSize + Int.tmod vaddr cfg.PageSize) ∧
      ∃ (j : Nat) (e : TranslationEntry), tlb[j]? = some e ∧ i = (j : Int) ∧
        log.swapI = (j : Int) ∧ log.physicalPage = e.physicalPage ∧
        m1 = { m with tlb := some (tlb.set j (fillSlot (Int.tdiv vaddr cfg.PageSize) e)) } := by
    intro i hi
    cases hm : modifyAt tlb i (fillSlot (Int.tdiv vaddr cfg.PageSize)) with
    | none => rw [hm] at hi; cases hi
    | some t2 =>
      obtain ⟨h0, h1, x, hx, ht2⟩ := modifyAt_some tlb t2 i _ hm
      have hr : readAt t2 i = some (fillSlot (Int.tdiv vaddr cfg.PageSize) x) := by
        rw [ht2]
        exact readAt_set_same tlb i _ h0 h1
      rw [hm] at hi
      simp only [hr] at hi
      injection hi with hlog hm1
      subst hlog
      refine ⟨rfl, rfl, rfl, i.toNat, x, hx, (Int.toNat_of_nonneg h0).symm,
        (Int.toNat_of_nonneg h0).symm, rfl, ?_⟩
      rw [← hm1, ht2]
  unfold Machine.tlbSwap at h
  rw [htlb] at h
  simp only at h
  by_cases hps : cfg.PageSize = 0
  · rw [if_pos hps] at h; cases h
  · rw [if_neg hps] at h
    refine ⟨hps, ?_⟩
    by_cases hscan : scanInvalid tlb 0 = -1
    · rw [if_pos hscan] at h
      by_cases hpolicy : cfg.TLB_LRU = true
      · simp only [tlbReplace, hpolicy, if_true] at h
        obtain ⟨a1, a2, a3, j, e, b1, b2, b3, b4, b5⟩ := inPlace _ h
        exact ⟨a1, a2, a3, Or.inl ⟨j, e, b1, b3, b4, b5, Or.inr ⟨hscan, hpolicy, b2⟩⟩⟩
      · have hpol : cfg.TLB_LRU = false := by simpa using hpolicy
        cases hpt : readPtr m.pageTable (Int.tdiv vaddr cfg.PageSize) with
        | none =>
          simp only [tlbReplace, hpol, Bool.false_eq_true, if_false, hpt] at h
          cases h
        | some pe =>
          cases tlb with
          | nil =>
            simp only [tlbReplace, hpol, Bool.false_eq_true, if_false, hpt, fifoShift, modifyAt,
              readAt] at h
            simp at h
          | cons e0 rest =>
            obtain ⟨x, hrep⟩ := tlbReplace_FIFO cfg m.pageTable
              (Int.tdiv vaddr cfg.PageSize) e0 rest pe hpol hpt
            rw [hrep] at h
            simp only [modifyAt_snoc, readAt_snoc] at h
            injection h with hlog hm1
            subst hlog
            exact ⟨rfl, rfl, rfl, Or.inr ⟨e0, rest, pe, rfl, hscan, hpol, rfl, rfl, rfl,
              hm1.symm⟩⟩
    · rw [if_neg hscan] at h
      obtain ⟨a1, a2, a3, j, e, b1, b2, b3, b4, b5⟩ := inPlace _ h
      exact ⟨a1, a2, a3, Or.inl ⟨j, e, b1, b3, b4, b5, Or.inl b2⟩⟩

end Nachos

namespace Nachos

theorem getElem?_lt_length {α : Type} (a : List α) (j : Nat) (x : α) (h : a[j]? = some x) :
    j < a.length := by
  by_contra hge
  rw [List.getElem?_eq_none (by omega)] at h
  cases h

/-- C12: whenever `tlbSwap` returns, exactly one slot, `swapI`, is initialised:
it is in range and afterwards has `valid = true`, `virtualPage = vaddr /
PageSize` (C division), `use = false`, `dirty = false`, `readOnly = false` and
`hitRate = 0`, on every path. Every other slot holds an old entry untouched:
the entry it held before (slot reuse, LRU eviction) or the one of the next
index (FIFO eviction, where `swapI` is the last index). The array keeps its
size and nothing else in the machine changes. -/
theorem tlbSwap_initialises_one_slot (cfg : Config) (m m1 : Machine)
    (tlb : List TranslationEntry) (vaddr : Int) (log : SwapLog) (htlb : m.tlb = some tlb)
    (h : m.tlbSwap cfg vaddr = .ok log m1) :
    ∃ (tlb1 : List TranslationEntry) (e : TranslationEntry),
      m1 = { m with tlb := some tlb1 } ∧ tlb1.length = tlb.length ∧
      0 ≤ log.swapI ∧ log.swapI < tlb1.length ∧
      readAt tlb1 log.swapI = some e ∧
      e.valid = true ∧ e.virtualPage = Int.tdiv vaddr cfg.PageSize ∧
      e.use = false ∧ e.dirty = false ∧ e.readOnly = false ∧ e.hitRate = 0 ∧
      ((∀ k : Nat, (k : Int) ≠ log.swapI → tlb1[k]? = tlb[k]?) ∨
       (log.swapI = (tlb.length : Int) - 1 ∧
         ∀ k : Nat, (k : Int) ≠ log.swapI → k < tlb.length → tlb1[k]? = tlb[k + 1]?)) := by
  obtain ⟨_, _, _, _, hcases⟩ := tlbSwap_cases cfg m m1 tlb vaddr log htlb h
  rcases hcases with ⟨j, e, hj, hswap, _, hm1, _⟩ | ⟨e0, rest, pe, rfl, _, _, _, hswap, _, hm1⟩
  · have hlt := getElem?_lt_length tlb j e hj
    refine ⟨_, fillSlot (Int.tdiv vaddr cfg.PageSize) e, hm1, by simp, by omega,
      by rw [hswap]; simp [hlt], ?_, rfl, rfl, rfl, rfl, rfl, rfl, Or.inl ?_⟩
    · rw [hswap]
      exact readAt_set_natCast tlb j e _ hj
    · intro k hk
      rw [hswap] at hk
      rw [List.getElem?_set, if_neg (fun hjk => hk (by rw [hjk]))]
  · refine ⟨_, mapping (Int.tdiv vaddr cfg.PageSize) pe.physicalPage 0, hm1, by simp, by omega,
      by rw [hswap]; simp, ?_, rfl, rfl, rfl, rfl, rfl, rfl, Or.inr ⟨?_, ?_⟩⟩
    · rw [hswap]
      exact readAt_snoc rest _
    · rw [hswap]; simp
    · intro k hk hlt
      rw [hswap] at hk
      have hk2 : k < rest.length := by
        simp only [List.length_cons] at hlt
        have : k ≠ rest.length := fun hh => hk (by rw [hh])
        omega
      rw [List.getElem?_append_left hk2]
      simp

/-- C12 at concrete states: the FIFO and the LRU refill of `fullDemo` for
address 517 (page 4) return, and the slot each names is initialised. -/
theorem tlbSwap_initialises_one_slot_witness :
    fullDemo.tlbSwap stockFIFO 517 = .ok fifoDemoLog fifoDemoAfter ∧
    fullDemo.tlbSwap stockLRU 517 = .ok lruDemoLog lruDemoAfter ∧
    (∃ (tlb1 : List TranslationEntry) (e : TranslationEntry),
      fifoDemoAfter = { fullDemo with tlb := some tlb1 } ∧
      tlb1.length = [mapping 0 10 5, mapping 1 11 1, mapping 2 12 9, mapping 3 13 2].length ∧
      0 ≤ fifoDemoLog.swapI ∧ fifoDemoLog.swapI < tlb1.length ∧
      readAt tlb1 fifoDemoLog.swapI = some e ∧
      e.valid = true ∧ e.virtualPage = Int.tdiv 517 stockFIFO.PageSize ∧
      e.use = false ∧ e.dirty = false ∧ e.readOnly = false ∧ e.hitRate = 0 ∧
      ((∀ k : Nat, (k : Int) ≠ fifoDemoLog.swapI → tlb1[k]? =
          [mapping 0 10 5, mapping 1 11 1, mapping 2 12 9, mapping 3 13 2][k]?) ∨
       (fifoDemoLog.swapI =
          ([mapping 0 10 5, mapping 1 11 1, mapping 2 12 9, mapping 3 13 2].length : Int) - 1 ∧
         ∀ k : Nat, (k : Int) ≠ fifoDemoLog.swapI →
           k < [mapping 0 10 5, mapping 1 11 1, mapping 2 12 9, mapping 3 13 2].length →
           tlb1[k]? =
             [mapping 0 10 5, mapping 1 11 1, mapping 2 12 9, mapping 3 13 2][k + 1]?))) ∧
    (∃ (tlb1 : List TranslationEntry) (e : TranslationEntry),
      lruDemoAfter = { fullDemo with tlb := some tlb1 } ∧
      tlb1.length = [mapping 0 10 5, mapping 1 11 1, mapping 2 12 9, mapping 3 13 2].length ∧
      0 ≤ lruDemoLog.swapI ∧ lruDemoLog.swapI < tlb1.length ∧
      readAt tlb1 lruDemoLog.swapI = some e ∧
      e.valid = true ∧ e.virtualPage = Int.tdiv 517 stockLRU.PageSize ∧
      e.use = false ∧ e.dirty = false ∧ e.readOnly = false ∧ e.hitRate = 0 ∧
      ((∀ k : Nat, (k : Int) ≠ lruDemoLog.swapI → tlb1[k]? =
          [mapping 0 10 5, mapping 1 11 1, mapping 2 12 9, mapping 3 13 2][k]?) ∨
       (lruDemoLog.swapI =
          ([mapping 0 10 5, mapping 1 11 1, mapping 2 12 9, mapping 3 13 2].length : Int) - 1 ∧
         ∀ k : Nat, (k : Int) ≠ lruDemoLog.swapI →
           k < [mapping 0 10 5, mapping 1 11 1, mapping 2 12 9, mapping 3 13 2].length →
           tlb1[k]? =
             [mapping 0 10 5, mapping 1 11 1, mapping 2 12 9, mapping 3 13 2][k + 1]?))) :=
  ⟨by decide, by decide,
    tlbSwap_initialises_one_slot stockFIFO fullDemo fifoDemoAfter _ 517 fifoDemoLog rfl
      (by decide),
    tlbSwap_initialises_one_slot stockLRU fullDemo lruDemoAfter _ 517 lruDemoLog rfl
      (by decide)⟩

end Nachos

namespace Nachos

/-- C16: under the FIFO policy, on a full TLB, for a virtual address whose page
`vpn = vaddr / PageSize` indexes the page-table entry `pe`, `tlbSwap` returns
and the slot it populates has `physicalPage = pe.physicalPage`; the physical
address it computes from that slot is `pe.physicalPage * PageSize + vaddr %
PageSize`, evaluated in `int` arithmetic, which is that number itself whenever
it fits in 32 bits. -/
theorem tlbSwap_FIFO_frame_from_page_table (cfg : Config) (m : Machine)
    (e0 : TranslationEntry) (rest : List TranslationEntry) (vaddr : Int)
    (pe : TranslationEntry)
    (hpolicy : cfg.TLB_LRU = false) (hps : cfg.PageSize ≠ 0)
    (htlb : m.tlb = some (e0 :: rest)) (hfull : tlbFull (e0 :: rest) = true)
    (hpt : readPtr m.pageTable (Int.tdiv vaddr cfg.PageSize) = some pe) :
    ∃ (log : SwapLog) (m1 : Machine) (tlb1 : List TranslationEntry) (e : TranslationEntry),
      m.tlbSwap cfg vaddr = .ok log m1 ∧ m1.tlb = some tlb1 ∧
      readAt tlb1 log.swapI = some e ∧
      e.physicalPage = pe.physicalPage ∧ log.physicalPage = pe.physicalPage ∧
      log.phyAddr = wrap32 (pe.physicalPage * cfg.PageSize + Int.tmod vaddr cfg.PageSize) ∧
      (-2147483648 ≤ pe.physicalPage * cfg.PageSize + Int.tmod vaddr cfg.PageSize →
        pe.physicalPage * cfg.PageSize + Int.tmod vaddr cfg.PageSize < 2147483648 →
        log.phyAddr = pe.physicalPage * cfg.PageSize + Int.tmod vaddr cfg.PageSize) := by
  refine ⟨_, _, _, mapping (Int.tdiv vaddr cfg.PageSize) pe.physicalPage 0,
    tlbSwap_FIFO_full_eq cfg m e0 rest vaddr pe hpolicy hps htlb hfull hpt, rfl,
    readAt_snoc rest _, rfl, rfl, rfl, ?_⟩
  intro h0 h1
  exact wrap32_of_range _ h0 h1

/-- C16 at a concrete state: the FIFO refill of `fullDemo` for address 517
(page 4, offset 5) puts frame 14, the page table's frame of page 4, in slot 3
and computes `14 * 128 + 5 = 1797`. -/
theorem tlbSwap_FIFO_frame_from_page_table_witness :
    readPtr fullDemo.pageTable (Int.tdiv 517 stockFIFO.PageSize) = some (mapping 4 14 0) ∧
    fullDemo.tlbSwap stockFIFO 517 = .ok fifoDemoLog fifoDemoAfter ∧
    fifoDemoLog.phyAddr = 14 * 128 + 5 ∧
    ∃ (log : SwapLog) (m1 : Machine) (tlb1 : List TranslationEntry) (e : TranslationEntry),
      fullDemo.tlbSwap stockFIFO 517 = .ok log m1 ∧ m1.tlb = some tlb1 ∧
      readAt tlb1 log.swapI = some e ∧
      e.physicalPage = (mapping 4 14 0).physicalPage ∧
      log.physicalPage = (mapping 4 14 0).physicalPage ∧
      log.phyAddr = wrap32 ((mapping 4 14 0).physicalPage * stockFIFO.PageSize +
        Int.tmod 517 stockFIFO.PageSize) ∧
      (-2147483648 ≤ (mapping 4 14 0).physicalPage * stockFIFO.PageSize +
          Int.tmod 517 stockFIFO.PageSize →
        (mapping 4 14 0).physicalPage * stockFIFO.PageSize +
          Int.tmod 517 stockFIFO.PageSize < 2147483648 →
        log.phyAddr = (mapping 4 14 0).physicalPage * stockFIFO.PageSize +
          Int.tmod 517 stockFIFO.PageSize) :=
  ⟨by decide, by decide, by decide,
    tlbSwap_FIFO_frame_from_page_table stockFIFO fullDemo (mapping 0 10 5)
      [mapping 1 11 1, mapping 2 12 9, mapping 3 13 2] 517 (mapping 4 14 0) rfl (by decide)
      rfl (by decide) (by decide)⟩

theorem scanInvalid_ne_of_not_full (tlb : List TranslationEntry)
    (h : tlbFull tlb = false) : scanInvalid tlb 0 ≠ -1 := by
  intro hs
  rcases scanInvalid_spec tlb 0 with ⟨_, hall⟩ | ⟨j, _, h1, _⟩
  · rw [(tlbFull_iff tlb).mpr hall] at h
    cases h
  · rw [h1] at hs
    omega

/-- Off the FIFO eviction path the page table pointer plays no part in
`tlbSwap`: with any other page table the call has the same outcome. -/
theorem tlbSwap_pageTable_irrelevant (cfg : Config) (m : Machine)
    (tlb : List TranslationEntry) (vaddr : Int) (pt2 : Option (List TranslationEntry))
    (htlb : m.tlb = some tlb)
    (hpath : cfg.TLB_LRU = true ∨ scanInvalid tlb 0 ≠ -1) :
    ({ m with pageTable := pt2 } : Machine).tlbSwap cfg vaddr =
      match m.tlbSwap cfg vaddr with
      | .ok log m1 => .ok log { m1 with pageTable := pt2 }
      | .assertFailed s => .assertFailed { s with pageTable := pt2 }
      | .undefinedBehaviour => .undefinedBehaviour := by
  have hrep : ∀ pt : Option (List TranslationEntry),
      (if scanInvalid tlb 0 = -1 then tlbReplace cfg pt (Int.tdiv vaddr cfg.PageSize) tlb
        else some (scanInvalid tlb 0, tlb)) =
      (if scanInvalid tlb 0 = -1 then some ((lruScan tlb 0 (lruMinInit, -1)).2, tlb)
        else some (scanInvalid tlb 0, tlb)) := by
    intro pt
    rcases hpath with hl | hs
    · simp only [tlbReplace, hl, if_true]
    · simp only [hs, if_false]
  simp only [Machine.tlbSwap, htlb, hrep]
  by_cases hps : cfg.PageSize = 0
  · simp only [hps, if_true]
  · simp only [hps, if_false]
    generalize (if scanInvalid tlb 0 = -1 then some ((lruScan tlb 0 (lruMinInit, -1)).2, tlb)
        else some (scanInvalid tlb 0, tlb)) = chosen
    cases chosen with
    | none => rfl
    | some c =>
      obtain ⟨i, t⟩ := c
      simp only
      cases modifyAt t i (fillSlot (Int.tdiv vaddr cfg.PageSize)) with
      | none => rfl
      | some t2 =>
        simp only
        cases readAt t2 i with
        | none => rfl
        | some e => rfl

/-- C17: on the refill paths other than FIFO eviction (a TLB with an invalid
slot, under either policy, and the LRU eviction of a full TLB) `tlbSwap` does
not read the page table: with any other page table the call has the same
result, and the slot it populates has the frame number it had before the
call. On every path a `tlbSwap` that returns leaves the page table, the
registers, the frame bitmap (and main memory) as they were. -/
theorem tlbSwap_leaves_page_table_alone (cfg : Config) (m : Machine)
    (tlb : List TranslationEntry) (vaddr : Int) (htlb : m.tlb = some tlb) :
    (∀ (log : SwapLog) (m1 : Machine), m.tlbSwap cfg vaddr = .ok log m1 →
      m1.pageTable = m.pageTable ∧ m1.pageTableSize = m.pageTableSize ∧
      m1.registers = m.registers ∧ m1.bitMap = m.bitMap ∧
      m1.mainMemory = m.mainMemory) ∧
    ((cfg.TLB_LRU = true ∨ tlbFull tlb = false) →
      ∀ (log : SwapLog) (m1 : Machine), m.tlbSwap cfg vaddr = .ok log m1 →
        (∀ pt2 : Option (List TranslationEntry),
          ({ m with pageTable := pt2 } : Machine).tlbSwap cfg vaddr =
            .ok log { m1 with pageTable := pt2 }) ∧
        ∃ (tlb1 : List TranslationEntry) (before after : TranslationEntry),
          m1.tlb = some tlb1 ∧ readAt tlb log.swapI = some before ∧
          readAt tlb1 log.swapI = some after ∧
          after.physicalPage = before.physicalPage) := by
  constructor
  · intro log m1 h
    obtain ⟨tlb1, hm1, _⟩ := tlbSwap_shape cfg m m1 tlb vaddr log htlb h
    subst hm1
    exact ⟨rfl, rfl, rfl, rfl, rfl⟩
  · intro hpath log m1 h
    have hpath2 : cfg.TLB_LRU = true ∨ scanInvalid tlb 0 ≠ -1 :=
      hpath.imp id (scanInvalid_ne_of_not_full tlb)
    constructor
    · intro pt2
      rw [tlbSwap_pageTable_irrelevant cfg m tlb vaddr pt2 htlb hpath2, h]
    · obtain ⟨_, _, _, _, hcases⟩ := tlbSwap_cases cfg m m1 tlb vaddr log htlb h
      rcases hcases with ⟨j, e, hj, hswap, _, hm1, _⟩ | ⟨_, _, _, _, hscan, hpol, _⟩
      · refine ⟨_, e, fillSlot (Int.tdiv vaddr cfg.PageSize) e, by rw [hm1], ?_, ?_, rfl⟩
        · rw [hswap, readAt_natCast]; exact hj
        · rw [hswap]; exact readAt_set_natCast tlb j e _ hj
      · rcases hpath2 with hl | hs
        · rw [hl] at hpol; cases hpol
        · exact absurd hscan hs

/-- C17 at concrete states: the LRU refill of `fullDemo` gives the same TLB
with no page table at all, and slot 1 keeps frame 11 although the page table
maps page 4 to frame 14. -/
theorem tlbSwap_leaves_page_table_alone_witness :
    fullDemo.tlbSwap stockLRU 517 = .ok lruDemoLog lruDemoAfter ∧
    readPtr fullDemo.pageTable 4 = some (mapping 4 14 0) ∧
    ((∀ pt2 : Option (List TranslationEntry),
        ({ fullDemo with pageTable := pt2 } : Machine).tlbSwap stockLRU 517 =
          .ok lruDemoLog { lruDemoAfter with pageTable := pt2 }) ∧
      ∃ (tlb1 : List TranslationEntry) (before after : TranslationEntry),
        lruDemoAfter.tlb = some tlb1 ∧
        readAt [mapping 0 10 5, mapping 1 11 1, mapping 2 12 9, mapping 3 13 2]
          lruDemoLog.swapI = some before ∧
        readAt tlb1 lruDemoLog.swapI = some after ∧
        after.physicalPage = before.physicalPage) ∧
    (lruDemoAfter.pageTable = fullDemo.pageTable ∧
      lruDemoAfter.pageTableSize = fullDemo.pageTableSize ∧
      lruDemoAfter.registers = fullDemo.registers ∧ lruDemoAfter.bitMap = fullDemo.bitMap ∧
      lruDemoAfter.mainMemory = fullDemo.mainMemory) :=
  ⟨by decide, by decide,
    (tlbSwap_leaves_page_table_alone stockLRU fullDemo _ 517 rfl).2 (Or.inl rfl)
      lruDemoLog lruDemoAfter (by decide),
    (tlbSwap_leaves_page_table_alone stockLRU fullDemo _ 517 rfl).1
      lruDemoLog lruDemoAfter (by decide)⟩

end Nachos

namespace Nachos

/-! ## Traps: order of effects -/

theorem DelayedLoad_returns (cfg : Config) (nextReg nextValue : Int) (m : Machine) (t : Int)
    (hlen : m.registers.length = cfg.NumTotalRegs)
    (hL : cfg.LoadReg < cfg.NumTotalRegs) (hV : cfg.LoadValueReg < cfg.NumTotalRegs)
    (ht : readAt m.registers cfg.LoadReg = some t) (ht0 : 0 ≤ t)
    (ht1 : t < cfg.NumTotalRegs) :
    ∃ v, readAt m.registers cfg.LoadValueReg = some v ∧
      DelayedLoad cfg nextReg nextValue m = .ok ()
        { m with registers := (List.set
            (List.set (m.registers.set t.toNat v) cfg.LoadReg nextReg)
            cfg.LoadValueReg nextValue) } := by
  have hVlt : ((cfg.LoadValueReg : Nat) : Int) < (m.registers.length : Int) := by omega
  obtain ⟨v, hv, _⟩ := modifyAt_of_lt m.registers (cfg.LoadValueReg : Int) id (by omega) hVlt
  obtain ⟨_, _, h1⟩ := modifyAt_of_lt m.registers t (fun _ => v) ht0 (by omega)
  have hlen1 : (m.registers.set t.toNat v).length = m.registers.length := by simp
  obtain ⟨_, _, h2⟩ := modifyAt_of_lt (m.registers.set t.toNat v) (cfg.LoadReg : Int)
    (fun _ => nextReg) (by omega) (by omega)
  have hlen2 : ((m.registers.set t.toNat v).set ((cfg.LoadReg : Int)).toNat nextReg).length
      = m.registers.length := by simp
  obtain ⟨_, _, h3⟩ := modifyAt_of_lt
    ((m.registers.set t.toNat v).set ((cfg.LoadReg : Int)).toNat nextReg)
    (cfg.LoadValueReg : Int) (fun _ => nextValue) (by omega) (by omega)
  refine ⟨v, hv, ?_⟩
  simp only [Int.toNat_ofNat] at h2 h3
  simp only [DelayedLoad, ht, hv, h1, h2, h3]

/-- C18: `RaiseException(which, addr)` on a well-formed register file (pending
delayed load aimed at an in-range register) performs its effects in the source
order. The register file `m0` with `addr` stored in `BadVAddrReg` is built
first; `DelayedLoad(0, 0)` runs on `m0` and gives `m1`, in which no load is
pending any more; the handler is applied once, to `which` and to the state
made of `m1` and system mode (so `BadVAddrReg` still holds `addr` there unless
the flushed load was aimed at it); and the result of the call is the state the
handler returned with the flag set to user mode. -/
theorem RaiseException_order_of_effects (cfg : Config)
    (handler : ExceptionType → Sys → Sys) (which : ExceptionType) (addr : Int) (s : Sys)
    (t : Int)
    (hlen : s.machine.registers.length = cfg.NumTotalRegs)
    (hB : cfg.BadVAddrReg < cfg.NumTotalRegs)
    (hL : cfg.LoadReg < cfg.NumTotalRegs) (hV : cfg.LoadValueReg < cfg.NumTotalRegs)
    (hBL : cfg.BadVAddrReg ≠ cfg.LoadReg) (hBV : cfg.BadVAddrReg ≠ cfg.LoadValueReg)
    (ht : readAt s.machine.registers cfg.LoadReg = some t) (ht0 : 0 ≤ t)
    (ht1 : t < cfg.NumTotalRegs) :
    ∃ (m0 m1 : Machine),
      m0 = { s.machine with registers := s.machine.registers.set cfg.BadVAddrReg addr } ∧
      readAt m0.registers cfg.BadVAddrReg = some addr ∧
      DelayedLoad cfg 0 0 m0 = .ok () m1 ∧
      readAt m1.registers cfg.LoadReg = some 0 ∧
      readAt m1.registers cfg.LoadValueReg = some 0 ∧
      (t ≠ cfg.BadVAddrReg → readAt m1.registers cfg.BadVAddrReg = some addr) ∧
      RaiseException cfg handler which addr s = .ok ()
        { handler which { machine := m1, status := MachineStatus.SystemMode } with
          status := MachineStatus.UserMode } ∧
      ({ machine := m1, status := MachineStatus.SystemMode } : Sys).status =
        MachineStatus.SystemMode := by
  have hBlt : ((cfg.BadVAddrReg : Nat) : Int) < (s.machine.registers.length : Int) := by
    omega
  have hB0 : (0 : Int) ≤ ((cfg.BadVAddrReg : Nat) : Int) := by omega
  obtain ⟨_, _, hw⟩ := modifyAt_of_lt s.machine.registers (cfg.BadVAddrReg : Int)
    (fun _ => addr) hB0 hBlt
  rw [Int.toNat_ofNat] at hw
  have hread : readAt (s.machine.registers.set cfg.BadVAddrReg addr)
      (cfg.BadVAddrReg : Int) = some addr := by
    have := readAt_set_same s.machine.registers (cfg.BadVAddrReg : Int) addr hB0 hBlt
    rwa [Int.toNat_ofNat] at this
  have htgt : readAt (s.machine.registers.set cfg.BadVAddrReg addr)
      (cfg.LoadReg : Int) = some t := by
    have := readAt_set_other s.machine.registers (cfg.BadVAddrReg : Int) (cfg.LoadReg : Int)
      addr hB0 (by omega)
    rw [Int.toNat_ofNat] at this
    rw [this]
    exact ht
  obtain ⟨v, _, hd⟩ := DelayedLoad_returns cfg 0 0
    { s.machine with registers := s.machine.registers.set cfg.BadVAddrReg addr }
    t (by simpa using hlen) hL hV htgt ht0 ht1
  have hsetV : ∀ (a : List Int), a.length = s.machine.registers.length →
      readAt (List.set a cfg.LoadValueReg 0) (cfg.LoadValueReg : Int) = some 0 := by
    intro a ha
    have := readAt_set_same a (cfg.LoadValueReg : Int) 0 (by omega) (by omega)
    rwa [Int.toNat_ofNat] at this
  have hsetL : ∀ (a : List Int), a.length = s.machine.registers.length →
      readAt (List.set a cfg.LoadReg 0) (cfg.LoadReg : Int) = some 0 := by
    intro a ha
    have := readAt_set_same a (cfg.LoadReg : Int) 0 (by omega) (by omega)
    rwa [Int.toNat_ofNat] at this
  have hother : ∀ (a : List Int) (i j : Nat) (x : Int), i ≠ j →
      readAt (List.set a i x) (j : Int) = readAt a (j : Int) := by
    intro a i j x hij
    have := readAt_set_other a (i : Int) (j : Int) x (by omega) (by omega)
    rwa [Int.toNat_ofNat] at this
  refine ⟨_, _, rfl, hread, hd, ?_, ?_, ?_, ?_, rfl⟩
  · show readAt (List.set (List.set _ cfg.LoadReg 0) cfg.LoadValueReg 0)
      (cfg.LoadReg : Int) = some 0
    by_cases hLV : cfg.LoadValueReg = cfg.LoadReg
    · rw [← hLV]
      exact hsetV _ (by simp)
    · rw [hother _ _ _ _ hLV]
      exact hsetL _ (by simp)
  · exact hsetV _ (by simp)
  · intro htB
    show readAt (List.set (List.set (List.set _ t.toNat v) cfg.LoadReg 0) cfg.LoadValueReg 0)
      (cfg.BadVAddrReg : Int) = some addr
    rw [hother _ _ _ _ (fun h => hBV h.symm), hother _ _ _ _ (fun h => hBL h.symm),
      readAt_set_other _ t _ v ht0 htB]
    exact hread
  · simp only [RaiseException, hw, hd]

/-- C18 at a concrete state: with the stock constants, 40 registers holding 7
except a pending load of 9 into register 2, `RaiseException(SyscallException,
1234)` flushes the load, calls the handler in system mode with `BadVAddrReg =
1234` and returns in user mode; with the handler that counts its invocations
in register 4, that register ends at `7 + 1`: one invocation. -/
theorem RaiseException_order_of_effects_witness :
    (∃ (m0 m1 : Machine),
      m0 = { registersOnly (((List.replicate 40 7).set 37 2).set 38 9) with
             registers := (((List.replicate 40 7).set 37 2).set 38 9).set
               stockFIFO.BadVAddrReg 1234 } ∧
      readAt m0.registers stockFIFO.BadVAddrReg = some 1234 ∧
      DelayedLoad stockFIFO 0 0 m0 = .ok () m1 ∧
      readAt m1.registers stockFIFO.LoadReg = some 0 ∧
      readAt m1.registers stockFIFO.LoadValueReg = some 0 ∧
      ((2 : Int) ≠ stockFIFO.BadVAddrReg →
        readAt m1.registers stockFIFO.BadVAddrReg = some 1234) ∧
      RaiseException stockFIFO idleHandler ExceptionType.SyscallException 1234
          { machine := registersOnly (((List.replicate 40 7).set 37 2).set 38 9),
            status := MachineStatus.UserMode } = .ok ()
        { idleHandler ExceptionType.SyscallException
            { machine := m1, status := MachineStatus.SystemMode } with
          status := MachineStatus.UserMode } ∧
      ({ machine := m1, status := MachineStatus.SystemMode } : Sys).status =
        MachineStatus.SystemMode) ∧
    (∃ s2, RaiseException stockFIFO countingHandler ExceptionType.SyscallException 1234
        { machine := registersOnly (((List.replicate 40 7).set 37 2).set 38 9),
          status := MachineStatus.UserMode } = .ok () s2 ∧
      readAt s2.machine.registers 4 = some 8 ∧ readAt s2.machine.registers 2 = some 9 ∧
      readAt s2.machine.registers 39 = some 1234 ∧ s2.status = MachineStatus.UserMode) :=
  ⟨RaiseException_order_of_effects stockFIFO idleHandler ExceptionType.SyscallException 1234
    { machine := registersOnly (((List.replicate 40 7).set 37 2).set 38 9),
      status := MachineStatus.UserMode } 2 rfl (by decide) (by decide) (by decide)
    (by decide) (by decide) (by decide) (by decide) (by decide),
    ⟨_, rfl, by decide, by decide, by decide, by decide⟩⟩

end Nachos

namespace Nachos

/-! ## The LRU victim index -/

/-- Where the LRU victim index is in bounds: on a TLB in which some valid slot
has a hit counter below `2^31 - 1`, the scan ends on an index of the array. -/
theorem lruScan_victim_in_range (tlb : List TranslationEntry) (e : TranslationEntry)
    (he : e ∈ tlb) (hv : e.valid = true) (hlt : e.hitRate < 2147483647) :
    0 ≤ (lruScan tlb 0 (lruMinInit, -1)).2 ∧
    (lruScan tlb 0 (lruMinInit, -1)).2 < tlb.length := by
  rcases lruScan_spec tlb 0 (lruMinInit, -1) with ⟨_, h2⟩ | ⟨j, x, h1, _, h3, _⟩
  · have := h2 e he hv
    rw [lruMinInit_eq] at this
    omega
  · have hj := getElem?_lt_length tlb j x h1
    rw [h3]
    simp only [Nat.zero_add]
    omega

/-- C19 (failing input): on the full four-slot TLB in which every hit counter
is `2^31 - 1`, the value `(1 << 31) - 1` of the initial minimum, the LRU scan
ends with victim index `-1`, which is not in `0 .. TLBSize - 1`; the write
`tlb[swapI]` that follows is outside the array. -/
theorem lruScan_saturated_victim_out_of_bounds :
    tlbFull saturatedTlb = true ∧
    (∀ e ∈ saturatedTlb, e.hitRate = 2 ^ 31 - 1) ∧
    lruMinInit = 2 ^ 31 - 1 ∧
    (lruScan saturatedTlb 0 (lruMinInit, -1)).2 = -1 ∧
    ¬ (0 ≤ (lruScan saturatedTlb 0 (lruMinInit, -1)).2 ∧
       (lruScan saturatedTlb 0 (lruMinInit, -1)).2 < saturatedTlb.length) ∧
    tlbReplace stockLRU (some eightPages) 4 saturatedTlb = some (-1, saturatedTlb) ∧
    modifyAt saturatedTlb (-1) (fillSlot 4) = none := by
  decide

/-! ## The invariant across one refill -/

theorem tlbHolds_of_getElem? (tlb : List TranslationEntry) (j : Nat) (e : TranslationEntry)
    (vpn : Int) (hj : tlb[j]? = some e) (hv : e.valid = true) (hp : e.virtualPage = vpn) :
    tlbHolds tlb vpn = true := by
  unfold tlbHolds
  rw [List.any_eq_true]
  exact ⟨e, List.getElem?_mem hj, by simp [hv, hp]⟩

/-- A refill made on a miss that returns keeps the valid entries' virtual
pages pairwise distinct, and afterwards a valid entry maps the new page. -/
theorem tlbSwap_miss_keeps_invariant (cfg : Config) (m m1 : Machine)
    (tlb : List TranslationEntry) (vaddr : Int) (log : SwapLog) (htlb : m.tlb = some tlb)
    (hd : distinctValid tlb)
    (hmiss : tlbHolds tlb (Int.tdiv vaddr cfg.PageSize) = false)
    (h : m.tlbSwap cfg vaddr = .ok log m1) :
    ∃ tlb1, m1.tlb = some tlb1 ∧ distinctValid tlb1 ∧
      tlbHolds tlb1 (Int.tdiv vaddr cfg.PageSize) = true ∧ tlb1.length = tlb.length := by
  obtain ⟨tlb1, h1, h2, h3⟩ := tlbSwap_miss_keeps_distinct cfg m m1 tlb vaddr log htlb hd hmiss h
  refine ⟨tlb1, h1, h2, ?_, h3⟩
  obtain ⟨_, _, _, _, hcases⟩ := tlbSwap_cases cfg m m1 tlb vaddr log htlb h
  rcases hcases with ⟨j, e, hj, _, _, hm1, _⟩ | ⟨e0, rest, pe, _, _, _, _, _, _, hm1⟩
  · rw [hm1] at h1
    injection h1 with h1
    rw [← h1]
    have hlt := getElem?_lt_length tlb j e hj
    apply tlbHolds_of_getElem? _ j (fillSlot (Int.tdiv vaddr cfg.PageSize) e) _ _ rfl rfl
    rw [List.getElem?_set]
    simp [hlt]
  · rw [hm1] at h1
    injection h1 with h1
    rw [← h1]
    apply tlbHolds_of_getElem? _ rest.length
      (mapping (Int.tdiv vaddr cfg.PageSize) pe.physicalPage 0) _ _ rfl rfl
    simp

/-- The invariant across one refill at concrete states: the FIFO and the LRU
refill of `fullDemo` for page 4, a miss, leave a TLB with distinct pages that
holds page 4. -/
theorem tlbSwap_miss_keeps_invariant_witness :
    (∃ tlb1, fifoDemoAfter.tlb = some tlb1 ∧ distinctValid tlb1 ∧
      tlbHolds tlb1 (Int.tdiv 517 stockFIFO.PageSize) = true ∧
      tlb1.length = [mapping 0 10 5, mapping 1 11 1, mapping 2 12 9, mapping 3 13 2].length) ∧
    (∃ tlb1, lruDemoAfter.tlb = some tlb1 ∧ distinctValid tlb1 ∧
      tlbHolds tlb1 (Int.tdiv 517 stockLRU.PageSize) = true ∧
      tlb1.length = [mapping 0 10 5, mapping 1 11 1, mapping 2 12 9, mapping 3 13 2].length) :=
  ⟨tlbSwap_miss_keeps_invariant stockFIFO fullDemo fifoDemoAfter _ 517 fifoDemoLog rfl
      (by decide) (by decide) (by decide),
    tlbSwap_miss_keeps_invariant stockLRU fullDemo lruDemoAfter _ 517 lruDemoLog rfl
      (by decide) (by decide) (by decide)⟩

/-- C20 (failing input): the full TLB in which every hit counter is `2^31 - 1`
has pairwise distinct pages 0..3, and address 517 (page 4) misses; under the
LRU policy `tlbSwap(517)` then writes `tlb[-1]` instead of a slot of the
array: the call has no defined result, and no slot of the TLB becomes a valid
entry for page 4. -/
theorem tlbSwap_miss_saturated_no_entry :
    distinctValid saturatedTlb ∧
    tlbHolds saturatedTlb (Int.tdiv 517 stockLRU.PageSize) = false ∧
    (tlbOnly saturatedTlb eightPages).tlbSwap stockLRU 517 = .undefinedBehaviour ∧
    modifyAt saturatedTlb (lruScan saturatedTlb 0 (lruMinInit, -1)).2
      (fillSlot (Int.tdiv 517 stockLRU.PageSize)) = none ∧
    ¬ (∃ (log : SwapLog) (m1 : Machine) (tlb1 : List TranslationEntry),
        (tlbOnly saturatedTlb eightPages).tlbSwap stockLRU 517 = .ok log m1 ∧
        m1.tlb = some tlb1 ∧ distinctValid tlb1 ∧
        tlbHolds tlb1 (Int.tdiv 517 stockLRU.PageSize) = true) := by
  have hrun : (tlbOnly saturatedTlb eightPages).tlbSwap stockLRU 517 = .undefinedBehaviour := by
    decide
  refine ⟨by decide, by decide, hrun, by decide, ?_⟩
  rintro ⟨log, m1, tlb1, h, _⟩
  rw [hrun] at h
  cases h

end Nachos
